import Mathlib

/-!
# Invoice marketplace prototype: the auction engine of `src/App.jsx`

A shallow embedding of the state held by `InvoiceMarketplacePrototype`
(the invoice list, the wallet of the single user, the module level id
counter) and of the functions that change it: the two-second sweep,
`finalizeInvoice`, `handleUploadInvoice`, `placeBid`, `manuallySelectBid`
and `handleDepositMoney`.

Modelling conventions
* Amounts and wallet balances are `JsNumber`: `NaN`, or a finite number taken
  as an exact integer (no rounding, no infinities). `NaN` is what
  `parseFloat("")` hands to `placeBid` when the bid field is empty; every
  comparison with it is false and every sum or difference with it is `NaN`.
* Instants are `Int` milliseconds, and every call that reads `Date.now()`
  takes that reading as the argument `now`.
* A React state updater `setX (prev => f prev)` is the pure function `f`.
* The texts of the number inputs of the upload form and of the deposit field
  arrive parsed: `none` is an empty (falsy) field, `some n` a text that reads
  as the number `n`.
* `toast` calls do not change state; the toast of `placeBid` is kept as the
  outcome of the call, the others are dropped.
* The display-only fields of `currentUser` (name, ratings) are left out.
-/

namespace InvoiceMarketplace

/-! ## JavaScript numbers -/

/-- A JavaScript number as the engine meets it: `NaN`, or a finite number. -/
inductive JsNumber where
  | nan
  | num (n : Int)
deriving DecidableEq, Repr

namespace JsNumber

/-- JavaScript `a < b`: false as soon as one side is `NaN`. -/
def lt : JsNumber → JsNumber → Prop
  | num a, num b => a < b
  | num _, nan => False
  | nan, num _ => False
  | nan, nan => False

/-- JavaScript `a <= b`: false as soon as one side is `NaN`. -/
def le : JsNumber → JsNumber → Prop
  | num a, num b => a ≤ b
  | num _, nan => False
  | nan, num _ => False
  | nan, nan => False

/-- JavaScript `a - b`: `NaN` as soon as one side is `NaN`. -/
def sub : JsNumber → JsNumber → JsNumber
  | num a, num b => num (a - b)
  | num _, nan => nan
  | nan, num _ => nan
  | nan, nan => nan

/-- JavaScript `a + b`: `NaN` as soon as one side is `NaN`. -/
def add : JsNumber → JsNumber → JsNumber
  | num a, num b => num (a + b)
  | num _, nan => nan
  | nan, num _ => nan
  | nan, nan => nan

instance : LT JsNumber := ⟨lt⟩

instance : LE JsNumber := ⟨le⟩

instance : Sub JsNumber := ⟨sub⟩

instance : Add JsNumber := ⟨add⟩

instance (n : Nat) : OfNat JsNumber n := ⟨num (Int.ofNat n)⟩

instance decLt : (a b : JsNumber) → Decidable (a < b)
  | num a, num b => inferInstanceAs (Decidable (a < b))
  | num _, nan => isFalse (fun h => h)
  | nan, num _ => isFalse (fun h => h)
  | nan, nan => isFalse (fun h => h)

instance decLe : (a b : JsNumber) → Decidable (a ≤ b)
  | num a, num b => inferInstanceAs (Decidable (a ≤ b))
  | num _, nan => isFalse (fun h => h)
  | nan, num _ => isFalse (fun h => h)
  | nan, nan => isFalse (fun h => h)

end JsNumber

/-! ## Data model -/

/-- The object `newBid` built by `placeBid`. -/
structure Bid where
  userId : Nat
  amount : JsNumber
  timePlaced : Int
deriving DecidableEq, Repr

/-- The object `newInvoice` built by `handleUploadInvoice`, with the field
`winningBid` that `finalizeInvoice` adds (`none` while it is absent). -/
structure Invoice where
  id : Nat
  businessId : Nat
  title : String
  amount : JsNumber
  autoAcceptHighest : Bool
  endTime : Int
  bids : List Bid
  finalized : Bool
  biddingEnded : Bool
  minBid : JsNumber
  winningBid : Option Bid
deriving DecidableEq, Repr

/-- The part of `currentUser` the engine reads and writes. -/
structure User where
  id : Nat
  walletBalance : JsNumber
deriving DecidableEq, Repr

/-- The mutable state: `currentUser`, `invoices`, and `nextInvoiceId`. -/
structure State where
  currentUser : User
  invoices : List Invoice
  nextInvoiceId : Nat
deriving DecidableEq, Repr

/-- The state at mount: user 1 with some wallet balance (2000 in the source),
no invoices, `nextInvoiceId = 1`. -/
def initialState (walletBalance : Int) : State :=
  { currentUser := { id := 1, walletBalance := JsNumber.num walletBalance },
    invoices := [],
    nextInvoiceId := 1 }

/-! ## finalizeInvoice and the sweep -/

/-- `finalizeInvoice(invoice, winningBid)`:
`{ ...invoice, finalized: true, winningBid }`. -/
def finalizeInvoice (invoice : Invoice) (winningBid : Bid) : Invoice :=
  { invoice with finalized := true, winningBid := some winningBid }

/-- The reduce of the sweep:
`inv.bids.reduce((max, b) => b.amount > max.amount ? b : max, inv.bids[0])`,
with `first` standing for `inv.bids[0]`. -/
def highestBid (first : Bid) (bids : List Bid) : Bid :=
  bids.foldl (fun max b => if b.amount > max.amount then b else max) first

/-- The callback that the sweep maps over `prev`, at clock reading `now`. -/
def sweepInvoice (now : Int) (inv : Invoice) : Invoice :=
  if inv.finalized = false then
    if now ≥ inv.endTime then
      if inv.autoAcceptHighest = true then
        match inv.bids with
        | first :: _ =>
          if (highestBid first inv.bids).amount ≥ inv.minBid then
            finalizeInvoice inv (highestBid first inv.bids)
          else
            { inv with finalized := true }
        | [] => { inv with finalized := true }
      else
        { inv with biddingEnded := true }
    else inv
  else inv

/-- One tick of the interval timer: `setInvoices(prev => prev.map(...))`. -/
def sweep (s : State) (now : Int) : State :=
  { s with invoices := s.invoices.map (sweepInvoice now) }

/-! ## handleUploadInvoice -/

/-- The fields handed to `onUpload`. `amount`, `endTime` and `minBid` are the
parsed texts of their inputs, `none` for an empty input. -/
structure InvoiceForm where
  title : String
  amount : Option Int
  autoAcceptHighest : Bool
  endTime : Option Int
  minBid : Option Int
deriving DecidableEq, Repr

/-- `handleUploadInvoice`: returns early when title, amount or end time is
falsy; otherwise appends the new invoice and increments `nextInvoiceId`.
`minBid` is `parseFloat(minBid || 0)` in auto-accept mode and `0` otherwise. -/
def handleUploadInvoice (s : State) (f : InvoiceForm) : State :=
  match f.amount, f.endTime with
  | some amount, some endTime =>
    if f.title = "" then s
    else
      { s with
        invoices := s.invoices ++
          [{ id := s.nextInvoiceId,
             businessId := s.currentUser.id,
             title := f.title,
             amount := JsNumber.num amount,
             autoAcceptHighest := f.autoAcceptHighest,
             endTime := endTime,
             bids := [],
             finalized := false,
             biddingEnded := false,
             minBid :=
               if f.autoAcceptHighest = true then JsNumber.num (f.minBid.getD 0) else 0,
             winningBid := none }],
        nextInvoiceId := s.nextInvoiceId + 1 }
  | _, _ => s

/-! ## placeBid -/

/-- What the callback of `placeBid` did with one invoice, named after the
toast it shows: `untouched` is an invoice with another id (no toast). -/
inductive BidOutcome where
  | untouched
  | closedFinalized
  | timeOver
  | aboveMaximum
  | belowMinimum
  | insufficientBalance
  | placed
deriving DecidableEq, Repr

/-- The callback that `placeBid` maps over `prevInvoices`. `currentUser` is
the user object the closure captured, `now` the reading of `Date.now()`, and
`bidAmount` the value of `parseFloat(selectedBidValue)`, `NaN` included. -/
def placeBidInvoice (currentUser : User) (invoiceId : Nat) (bidAmount : JsNumber)
    (now : Int) (inv : Invoice) : Invoice × BidOutcome :=
  if inv.id = invoiceId then
    if inv.finalized = true then (inv, BidOutcome.closedFinalized)
    else if now > inv.endTime then (inv, BidOutcome.timeOver)
    else if bidAmount > inv.amount - 20 then (inv, BidOutcome.aboveMaximum)
    else if bidAmount < inv.minBid then (inv, BidOutcome.belowMinimum)
    else if currentUser.walletBalance < bidAmount then
      (inv, BidOutcome.insufficientBalance)
    else
      ({ inv with
         bids := inv.bids ++
           [{ userId := currentUser.id, amount := bidAmount, timePlaced := now }] },
       BidOutcome.placed)
  else (inv, BidOutcome.untouched)

/-- The queued `setCurrentUser` updaters of one `placeBid` call: one debit of
`bidAmount` for every invoice on which the bid was placed. -/
def debitPlaced (bidAmount : JsNumber) (user : User) (outcomes : List BidOutcome) : User :=
  outcomes.foldl
    (fun prevUser o =>
      if o = BidOutcome.placed then
        { prevUser with walletBalance := prevUser.walletBalance - bidAmount }
      else prevUser)
    user

/-- `placeBid(invoiceId, bidAmount)` at clock reading `now`: the new state and
the toasts shown, in order (none when no invoice has the id). -/
def placeBid (s : State) (invoiceId : Nat) (bidAmount : JsNumber) (now : Int) :
    State × List BidOutcome :=
  let results := s.invoices.map (placeBidInvoice s.currentUser invoiceId bidAmount now)
  ({ s with
     invoices := results.map Prod.fst,
     currentUser := debitPlaced bidAmount s.currentUser (results.map Prod.snd) },
   (results.map Prod.snd).filter (fun o => decide (o ≠ BidOutcome.untouched)))

/-! ## manuallySelectBid and handleDepositMoney -/

/-- The callback that `manuallySelectBid` maps over `prev`. -/
def manuallySelectBidInvoice (invoiceId : Nat) (selectedBid : Bid) (inv : Invoice) :
    Invoice :=
  if inv.id = invoiceId then
    if inv.finalized = true then inv
    else finalizeInvoice inv selectedBid
  else inv

/-- `manuallySelectBid(invoiceId, selectedBid)`. -/
def manuallySelectBid (s : State) (invoiceId : Nat) (selectedBid : Bid) : State :=
  { s with invoices := s.invoices.map (manuallySelectBidInvoice invoiceId selectedBid) }

/-- `handleDepositMoney(amount)`: `amount` is the text of the deposit input,
`none` when it is empty or not a number (`!amount || isNaN(amount)`), and
`some n` when it reads as the number `n`; then the balance becomes
`balance + n`, which is `NaN` when the balance is. -/
def handleDepositMoney (s : State) (amount : Option Int) : State :=
  match amount with
  | none => s
  | some n =>
    { s with currentUser :=
        { s.currentUser with
          walletBalance := s.currentUser.walletBalance + JsNumber.num n } }

/-! ## Call sequences -/

/-- The five entry points, each with its arguments and clock reading. -/
inductive Call where
  | createInvoice (form : InvoiceForm)
  | placeBid (invoiceId : Nat) (bidAmount : JsNumber) (now : Int)
  | manualFinalize (invoiceId : Nat) (selectedBid : Bid)
  | deposit (amount : Option Int)
  | sweep (now : Int)
deriving DecidableEq, Repr

/-- The state after one call. -/
def step (s : State) : Call → State
  | Call.createInvoice form => handleUploadInvoice s form
  | Call.placeBid invoiceId bidAmount now => (placeBid s invoiceId bidAmount now).1
  | Call.manualFinalize invoiceId selectedBid => manuallySelectBid s invoiceId selectedBid
  | Call.deposit amount => handleDepositMoney s amount
  | Call.sweep now => sweep s now

/-- The state after a sequence of calls, first call first. -/
def run (s : State) (calls : List Call) : State :=
  calls.foldl step s

/-- The precondition that the buttons of the business view establish for a
`manualFinalize` call: the chosen bid is in the bid list of every invoice that
has the id of the call and is not finalized. Other calls need nothing. -/
def choiceInBids (s : State) : Call → Prop
  | Call.manualFinalize invoiceId selectedBid =>
    ∀ inv ∈ s.invoices, inv.id = invoiceId → inv.finalized = false → selectedBid ∈ inv.bids
  | _ => True

instance (s : State) : (c : Call) → Decidable (choiceInBids s c)
  | Call.manualFinalize invoiceId selectedBid =>
    inferInstanceAs (Decidable (∀ inv ∈ s.invoices,
      inv.id = invoiceId → inv.finalized = false → selectedBid ∈ inv.bids))
  | Call.createInvoice _ => isTrue trivial
  | Call.placeBid _ _ _ => isTrue trivial
  | Call.deposit _ => isTrue trivial
  | Call.sweep _ => isTrue trivial

/-- Every `manualFinalize` call of the sequence satisfies `choiceInBids` in the
state in which it is made. -/
def choicesInBids (s : State) : List Call → Prop
  | [] => True
  | c :: cs => choiceInBids s c ∧ choicesInBids (step s c) cs

instance choicesInBidsDecidable : (s : State) → (cs : List Call) →
    Decidable (choicesInBids s cs)
  | _, [] => isTrue trivial
  | s, c :: cs =>
    @instDecidableAnd (choiceInBids s c) (choicesInBids (step s c) cs) inferInstance
      (choicesInBidsDecidable (step s c) cs)

/-- Every invoice that has a `winningBid` is finalized and holds that bid in
its own bid list. -/
def winningBidsValid (s : State) : Prop :=
  ∀ inv ∈ s.invoices, ∀ w, inv.winningBid = some w → inv.finalized = true ∧ w ∈ inv.bids

/-- Face amount and minimum bid of every invoice are numbers, and every stored
bid is a number between the minimum bid of its invoice and its face amount
minus 20. -/
def bidsWithinBounds (s : State) : Prop :=
  ∀ inv ∈ s.invoices,
    inv.amount ≠ JsNumber.nan ∧ inv.minBid ≠ JsNumber.nan ∧
      ∀ b ∈ inv.bids, b.amount ≤ inv.amount - 20 ∧ inv.minBid ≤ b.amount

/-- Invoice ids are pairwise different and below `nextInvoiceId`. -/
def idsFresh (s : State) : Prop :=
  (s.invoices.map Invoice.id).Nodup ∧ ∀ inv ∈ s.invoices, inv.id < s.nextInvoiceId

/-- A `deposit` call whose text reads as a number passes a number `≥ 0`, and
a `placeBid` call passes a number, not `NaN`. -/
def plainAmounts : Call → Prop
  | Call.deposit (some n) => 0 ≤ n
  | Call.placeBid _ bidAmount _ => bidAmount ≠ JsNumber.nan
  | _ => True

/-- A `placeBid` call passes a number, not `NaN`. -/
def bidIsNumber : Call → Prop
  | Call.placeBid _ bidAmount _ => bidAmount ≠ JsNumber.nan
  | _ => True

instance : (c : Call) → Decidable (bidIsNumber c)
  | Call.placeBid _ bidAmount _ => inferInstanceAs (Decidable (bidAmount ≠ JsNumber.nan))
  | Call.createInvoice _ => isTrue trivial
  | Call.manualFinalize _ _ => isTrue trivial
  | Call.deposit _ => isTrue trivial
  | Call.sweep _ => isTrue trivial

/-- A call of `placeBid` is accepted when the bid was placed on an invoice. -/
def bidAccepted (s : State) (invoiceId : Nat) (bidAmount : JsNumber) (now : Int) : Prop :=
  BidOutcome.placed ∈ (placeBid s invoiceId bidAmount now).2

instance (s : State) (invoiceId : Nat) (bidAmount : JsNumber) (now : Int) :
    Decidable (bidAccepted s invoiceId bidAmount now) := by
  unfold bidAccepted; infer_instance

/-! ## Sample data -/

/-- A manual-mode invoice of face amount 100 ending at instant 1000. -/
def sampleInvoice : Invoice :=
  { id := 1, businessId := 1, title := "a", amount := 100, autoAcceptHighest := false,
    endTime := 1000, bids := [], finalized := false, biddingEnded := false,
    minBid := 0, winningBid := none }

/-- A store holding `sampleInvoice` and a wallet of 2000. -/
def sampleState : State :=
  { currentUser := { id := 1, walletBalance := 2000 },
    invoices := [sampleInvoice],
    nextInvoiceId := 2 }

/-- A manual-mode invoice of face amount 100 ending at instant 1000 that holds
two bids, of 50 and of 60. -/
def manualInvoice : Invoice :=
  { id := 1, businessId := 1, title := "m", amount := 100, autoAcceptHighest := false,
    endTime := 1000,
    bids := [{ userId := 1, amount := 50, timePlaced := 10 },
             { userId := 1, amount := 60, timePlaced := 20 }],
    finalized := false, biddingEnded := false, minBid := 0, winningBid := none }

/-- A store holding `manualInvoice` and a wallet of 1890. -/
def manualState : State :=
  { currentUser := { id := 1, walletBalance := 1890 },
    invoices := [manualInvoice],
    nextInvoiceId := 2 }

/-- An auto-accept invoice of face amount 200 with minimum bid 150, ending at
instant 1000, that holds one bid of 160. -/
def autoInvoice : Invoice :=
  { id := 2, businessId := 1, title := "auto", amount := 200, autoAcceptHighest := true,
    endTime := 1000,
    bids := [{ userId := 1, amount := 160, timePlaced := 10 }],
    finalized := false, biddingEnded := false, minBid := 150, winningBid := none }

/-- An auto-accept invoice with minimum bid 0 that holds two bids of 100, the
first by bidder 7 and the second by bidder 8. -/
def tieInvoice : Invoice :=
  { id := 3, businessId := 1, title := "tie", amount := 200, autoAcceptHighest := true,
    endTime := 1000,
    bids := [{ userId := 7, amount := 100, timePlaced := 10 },
             { userId := 8, amount := 100, timePlaced := 20 }],
    finalized := false, biddingEnded := false, minBid := 0, winningBid := none }

/-- The invoice `sampleInvoice` after a bid of 80 at instant 10 and the manual
choice of that bid. -/
def chosenInvoice : Invoice :=
  { sampleInvoice with
    bids := [{ userId := 1, amount := 80, timePlaced := 10 }],
    finalized := true,
    winningBid := some { userId := 1, amount := 80, timePlaced := 10 } }

/-- The upload of an auto-accept invoice of face amount 200 with minimum bid
150 ending at instant 1000. -/
def autoForm : InvoiceForm :=
  { title := "auto", amount := some 200, autoAcceptHighest := true,
    endTime := some 1000, minBid := some 150 }

/-- The invoice that `autoForm` creates in the empty store, after a bid of 160
at instant 10. -/
def biddenInvoice : Invoice :=
  { id := 1, businessId := 1, title := "auto", amount := 200, autoAcceptHighest := true,
    endTime := 1000,
    bids := [{ userId := 1, amount := 160, timePlaced := 10 }],
    finalized := false, biddingEnded := false, minBid := 150, winningBid := none }

/-- A store whose only invoice is `manualInvoice` finalized with its bid of 60. -/
def finalizedState : State :=
  { currentUser := { id := 1, walletBalance := 1890 },
    invoices := [finalizeInvoice manualInvoice { userId := 1, amount := 60, timePlaced := 20 }],
    nextInvoiceId := 2 }


/-- The upload of an auto-accept invoice of face amount 200 without a minimum
bid, ending at instant 1000. -/
def openForm : InvoiceForm :=
  { title := "open", amount := some 200, autoAcceptHighest := true,
    endTime := some 1000, minBid := none }

/-- The invoice that `openForm` creates in the empty store, after Confirm on an
empty bid field at instant 10 and a bid of 160 at instant 20. -/
def nanFirstInvoice : Invoice :=
  { id := 1, businessId := 1, title := "open", amount := 200, autoAcceptHighest := true,
    endTime := 1000,
    bids := [{ userId := 1, amount := JsNumber.nan, timePlaced := 10 },
             { userId := 1, amount := 160, timePlaced := 20 }],
    finalized := false, biddingEnded := false, minBid := 0, winningBid := none }

/-- The invoice that `autoForm` (minimum bid 150) creates in the empty store,
after Confirm on an empty bid field at instant 10 and a bid of 160 at
instant 20. -/
def nanAutoInvoice : Invoice :=
  { id := 1, businessId := 1, title := "auto", amount := 200, autoAcceptHighest := true,
    endTime := 1000,
    bids := [{ userId := 1, amount := JsNumber.nan, timePlaced := 10 },
             { userId := 1, amount := 160, timePlaced := 20 }],
    finalized := false, biddingEnded := false, minBid := 150, winningBid := none }

/-! ## Lemmas on JavaScript comparisons -/

@[simp] theorem js_num_lt_num (a b : Int) : (JsNumber.num a < JsNumber.num b) ↔ a < b :=
  Iff.rfl

@[simp] theorem js_num_le_num (a b : Int) : (JsNumber.num a ≤ JsNumber.num b) ↔ a ≤ b :=
  Iff.rfl

@[simp] theorem js_not_nan_lt (x : JsNumber) : ¬ JsNumber.nan < x := by
  cases x <;> exact fun h => h

@[simp] theorem js_not_lt_nan (x : JsNumber) : ¬ x < JsNumber.nan := by
  cases x <;> exact fun h => h

@[simp] theorem js_not_nan_le (x : JsNumber) : ¬ JsNumber.nan ≤ x := by
  cases x <;> exact fun h => h

@[simp] theorem js_not_le_nan (x : JsNumber) : ¬ x ≤ JsNumber.nan := by
  cases x <;> exact fun h => h

@[simp] theorem js_num_sub_num (a b : Int) :
    JsNumber.num a - JsNumber.num b = JsNumber.num (a - b) := rfl

@[simp] theorem js_num_add_num (a b : Int) :
    JsNumber.num a + JsNumber.num b = JsNumber.num (a + b) := rfl

@[simp] theorem js_nan_sub (x : JsNumber) : JsNumber.nan - x = JsNumber.nan := by
  cases x <;> rfl

@[simp] theorem js_sub_nan (x : JsNumber) : x - JsNumber.nan = JsNumber.nan := by
  cases x <;> rfl

@[simp] theorem js_ofNat (n : Nat) :
    (OfNat.ofNat n : JsNumber) = JsNumber.num (Int.ofNat n) := rfl

theorem js_zero : (0 : JsNumber) = JsNumber.num 0 := rfl

theorem js_lt_trans {a b c : JsNumber} (h1 : a < b) (h2 : b < c) : a < c := by
  cases a <;> cases b <;> cases c <;> simp_all
  omega

theorem js_le_trans {a b c : JsNumber} (h1 : a ≤ b) (h2 : b ≤ c) : a ≤ c := by
  cases a <;> cases b <;> cases c <;> simp_all
  omega

theorem js_lt_of_le_of_lt {a b c : JsNumber} (h1 : a ≤ b) (h2 : b < c) : a < c := by
  cases a <;> cases b <;> cases c <;> simp_all
  omega

theorem js_le_of_lt {a b : JsNumber} (h : a < b) : a ≤ b := by
  cases a <;> cases b <;> simp_all
  omega

theorem js_not_le_of_lt {a b : JsNumber} (h : a < b) : ¬ b ≤ a := by
  cases a <;> cases b <;> simp_all

theorem js_le_of_not_lt {a b : JsNumber} (ha : a ≠ JsNumber.nan) (hb : b ≠ JsNumber.nan)
    (h : ¬ a < b) : b ≤ a := by
  cases a <;> cases b <;> simp_all

theorem js_le_refl {a : JsNumber} (ha : a ≠ JsNumber.nan) : a ≤ a := by
  cases a <;> simp_all

theorem js_ne_nan_of_le_left {a b : JsNumber} (h : a ≤ b) : a ≠ JsNumber.nan := by
  cases a <;> simp_all

theorem js_ne_nan_of_le_right {a b : JsNumber} (h : a ≤ b) : b ≠ JsNumber.nan := by
  cases b <;> simp_all

/-! ## Lemmas on placeBid -/

theorem placeBidInvoice_other (u : User) (a : JsNumber) (n : Int) {invoiceId : Nat} {inv : Invoice}
    (h : inv.id ≠ invoiceId) :
    placeBidInvoice u invoiceId a n inv = (inv, BidOutcome.untouched) := by
  simp [placeBidInvoice, h]

theorem placeBidInvoice_fst_of_not_placed (u : User) (invoiceId : Nat) (a : JsNumber) (n : Int)
    (inv : Invoice)
    (h : (placeBidInvoice u invoiceId a n inv).2 ≠ BidOutcome.placed) :
    (placeBidInvoice u invoiceId a n inv).1 = inv := by
  unfold placeBidInvoice at h ⊢
  split_ifs at h ⊢ <;> simp_all

theorem placeBidInvoice_placed_iff (u : User) (invoiceId : Nat) (a : JsNumber) (n : Int)
    (inv : Invoice) :
    (placeBidInvoice u invoiceId a n inv).2 = BidOutcome.placed ↔
      inv.id = invoiceId ∧ inv.finalized = false ∧ n ≤ inv.endTime ∧
        ¬ a > inv.amount - 20 ∧ ¬ a < inv.minBid ∧ ¬ u.walletBalance < a := by
  unfold placeBidInvoice
  split_ifs <;> simp_all

theorem placeBidInvoice_fst_of_placed (u : User) (invoiceId : Nat) (a : JsNumber) (n : Int)
    (inv : Invoice)
    (h : (placeBidInvoice u invoiceId a n inv).2 = BidOutcome.placed) :
    (placeBidInvoice u invoiceId a n inv).1 =
      { inv with bids := inv.bids ++ [{ userId := u.id, amount := a, timePlaced := n }] } := by
  unfold placeBidInvoice at h ⊢
  split_ifs at h ⊢
  simp_all

theorem debitPlaced_of_not_placed (a : JsNumber) (u : User) (os : List BidOutcome)
    (h : BidOutcome.placed ∉ os) : debitPlaced a u os = u := by
  induction os generalizing u with
  | nil => rfl
  | cons o os ih =>
    have ho : o ≠ BidOutcome.placed := fun e => h (by simp [e])
    have hos : BidOutcome.placed ∉ os := fun e => h (by simp [e])
    simp only [debitPlaced, List.foldl_cons, if_neg ho]
    exact ih u hos

theorem debitPlaced_append (a : JsNumber) (u : User) (os ps : List BidOutcome) :
    debitPlaced a u (os ++ ps) = debitPlaced a (debitPlaced a u os) ps := by
  simp [debitPlaced, List.foldl_append]

theorem ids_ne_of_nodup {pre post : List Invoice} {inv : Invoice}
    (h : ((pre ++ inv :: post).map Invoice.id).Nodup) :
    (∀ x ∈ pre, x.id ≠ inv.id) ∧ (∀ x ∈ post, x.id ≠ inv.id) := by
  rw [List.map_append, List.map_cons, List.nodup_append] at h
  obtain ⟨_, h2, h3⟩ := h
  rw [List.nodup_cons] at h2
  constructor
  · intro x hx e
    exact h3 (List.mem_map_of_mem Invoice.id hx) (by simp [e])
  · intro x hx e
    exact h2.1 (by rw [← e]; exact List.mem_map_of_mem Invoice.id hx)

/-- With the invoice list split around the only invoice that can carry the id,
`placeBid` is the callback applied to that invoice. -/
theorem placeBid_split (s : State) (pre post : List Invoice) (inv : Invoice)
    (invoiceId : Nat) (a : JsNumber) (n : Int)
    (hs : s.invoices = pre ++ inv :: post)
    (hpre : ∀ x ∈ pre, x.id ≠ invoiceId) (hpost : ∀ x ∈ post, x.id ≠ invoiceId) :
    placeBid s invoiceId a n =
      ({ s with
         invoices := pre ++ (placeBidInvoice s.currentUser invoiceId a n inv).1 :: post,
         currentUser := debitPlaced a s.currentUser
           [(placeBidInvoice s.currentUser invoiceId a n inv).2] },
       [(placeBidInvoice s.currentUser invoiceId a n inv).2].filter
         (fun o => decide (o ≠ BidOutcome.untouched))) := by
  have e1 : pre.map (placeBidInvoice s.currentUser invoiceId a n)
      = pre.map (fun x => (x, BidOutcome.untouched)) :=
    List.map_congr_left (fun x hx => placeBidInvoice_other _ _ _ (hpre x hx))
  have e2 : post.map (placeBidInvoice s.currentUser invoiceId a n)
      = post.map (fun x => (x, BidOutcome.untouched)) :=
    List.map_congr_left (fun x hx => placeBidInvoice_other _ _ _ (hpost x hx))
  have d1 : ∀ (l : List Invoice) (u : User),
      debitPlaced a u (l.map (fun _ => BidOutcome.untouched)) = u := by
    intro l u
    apply debitPlaced_of_not_placed
    simp
  have f1 : ∀ (l : List Invoice),
      (l.map (fun _ => BidOutcome.untouched)).filter
        (fun o => decide (o ≠ BidOutcome.untouched)) = [] := by
    intro l
    simp
  have hs2 : s.invoices = pre ++ ([inv] ++ post) := by simpa using hs
  unfold placeBid
  simp only [hs2, List.map_append, List.map_cons, List.map_nil, e1, e2, List.map_map,
    Function.comp_def, List.map_id', debitPlaced_append, d1, List.filter_append, f1,
    List.nil_append, List.append_nil]
  rfl

/-! ## placeBid: acceptance and atomic rejection -/

theorem bidAccepted_iff_of_split (s : State) (pre post : List Invoice) (inv : Invoice)
    (amount : JsNumber) (now : Int)
    (hs : s.invoices = pre ++ inv :: post)
    (hpre : ∀ x ∈ pre, x.id ≠ inv.id) (hpost : ∀ x ∈ post, x.id ≠ inv.id) :
    bidAccepted s inv.id amount now ↔
      (placeBidInvoice s.currentUser inv.id amount now inv).2 = BidOutcome.placed := by
  unfold bidAccepted
  rw [placeBid_split s pre post inv inv.id amount now hs hpre hpost]
  simp only [List.mem_filter, List.mem_singleton]
  constructor
  · rintro ⟨e, _⟩
    exact e.symm
  · intro e
    exact ⟨e.symm, by decide⟩

/-- On numbers the guards of `placeBid` are the three bounds: for an invoice of
a store with unique ids that is not finalized, a call time `now ≤ endTime`, and
a bid amount, face amount, minimum bid and wallet balance that are all numbers,
`placeBid` is accepted exactly when `amount ≤ faceAmount - 20`,
`amount ≥ minBid` and the balance is at least `amount`; and whenever a bid is
accepted (a number or `NaN`) the wallet becomes `balance - amount`, the bid is
appended to the bid list of that invoice and nothing else changes. -/
theorem placeBid_accepted_iff_of_numbers (s : State) (pre post : List Invoice)
    (inv : Invoice) (amount : JsNumber) (now : Int)
    (hs : s.invoices = pre ++ inv :: post)
    (hid : (s.invoices.map Invoice.id).Nodup)
    (hfin : inv.finalized = false)
    (hnow : now ≤ inv.endTime) :
    (amount ≠ JsNumber.nan → inv.amount ≠ JsNumber.nan → inv.minBid ≠ JsNumber.nan →
      s.currentUser.walletBalance ≠ JsNumber.nan →
      (bidAccepted s inv.id amount now ↔
        amount ≤ inv.amount - 20 ∧ amount ≥ inv.minBid ∧
          s.currentUser.walletBalance ≥ amount)) ∧
    (bidAccepted s inv.id amount now →
      (placeBid s inv.id amount now).1 =
        { currentUser :=
            { s.currentUser with walletBalance := s.currentUser.walletBalance - amount },
          invoices := pre ++
            { inv with
              bids := inv.bids ++
                [{ userId := s.currentUser.id, amount := amount, timePlaced := now }] }
            :: post,
          nextInvoiceId := s.nextInvoiceId }) := by
  obtain ⟨hpre, hpost⟩ := ids_ne_of_nodup (hs ▸ hid)
  have hsplit := placeBid_split s pre post inv inv.id amount now hs hpre hpost
  have hiff := placeBidInvoice_placed_iff s.currentUser inv.id amount now inv
  have hacc := bidAccepted_iff_of_split s pre post inv amount now hs hpre hpost
  constructor
  · intro ha hf hm hw
    rw [hacc, hiff]
    cases hA : amount with
    | nan => exact absurd hA ha
    | num a =>
      cases hF : inv.amount with
      | nan => exact absurd hF hf
      | num f =>
        cases hM : inv.minBid with
        | nan => exact absurd hM hm
        | num m =>
          cases hW : s.currentUser.walletBalance with
          | nan => exact absurd hW hw
          | num w =>
            simp only [js_ofNat, js_num_sub_num, js_num_lt_num, js_num_le_num, gt_iff_lt,
              ge_iff_le, not_lt, hfin, true_and]
            constructor
            · rintro ⟨_, h4, h5, h6⟩
              exact ⟨h4, h5, h6⟩
            · rintro ⟨h4, h5, h6⟩
              exact ⟨hnow, h4, h5, h6⟩
  · intro hb
    have hp := hacc.mp hb
    rw [hsplit, placeBidInvoice_fst_of_placed _ _ _ _ _ hp, hp]
    rfl

/-- The lemma on numbers at work: a bid of 80 on `sampleInvoice` (face amount
100) at instant 10 with a wallet of 2000. -/
theorem placeBid_accepted_iff_of_numbers_example :
    (bidAccepted sampleState sampleInvoice.id 80 10 ↔
      (80 : JsNumber) ≤ sampleInvoice.amount - 20 ∧ (80 : JsNumber) ≥ sampleInvoice.minBid ∧
        sampleState.currentUser.walletBalance ≥ 80)
    ∧ (bidAccepted sampleState sampleInvoice.id 80 10 →
      (placeBid sampleState sampleInvoice.id 80 10).1 =
        { currentUser :=
            { sampleState.currentUser with
              walletBalance := sampleState.currentUser.walletBalance - 80 },
          invoices := [] ++
            { sampleInvoice with
              bids := sampleInvoice.bids ++
                [{ userId := sampleState.currentUser.id, amount := 80, timePlaced := 10 }] }
            :: [],
          nextInvoiceId := sampleState.nextInvoiceId }) :=
  ⟨(placeBid_accepted_iff_of_numbers sampleState [] [] sampleInvoice 80 10 rfl (by decide) rfl
      (by decide)).1 (by decide) (by decide) (by decide) (by decide),
   (placeBid_accepted_iff_of_numbers sampleState [] [] sampleInvoice 80 10 rfl (by decide) rfl
      (by decide)).2⟩

/-- C1 fails on the code: `sampleState` is the state at mount after one upload
(face amount 100, wallet 2000); Confirm on an empty bid field calls `placeBid`
with `parseFloat("") = NaN`; all three comparisons of the guards are false, so
the bid is accepted although none of the three bounds holds, a bid of amount
`NaN` is stored and the wallet balance becomes `NaN`. -/
theorem placeBid_nan_accepted :
    run (initialState 2000)
        [Call.createInvoice
           { title := "a", amount := some 100, autoAcceptHighest := false,
             endTime := some 1000, minBid := none }] = sampleState
    ∧ bidAccepted sampleState 1 JsNumber.nan 10
    ∧ ¬ (JsNumber.nan ≤ sampleInvoice.amount - 20)
    ∧ ¬ (JsNumber.nan ≥ sampleInvoice.minBid)
    ∧ ¬ (sampleState.currentUser.walletBalance ≥ JsNumber.nan)
    ∧ placeBid sampleState 1 JsNumber.nan 10 =
        ({ currentUser := { id := 1, walletBalance := JsNumber.nan },
           invoices :=
             [{ sampleInvoice with
                bids := [{ userId := 1, amount := JsNumber.nan, timePlaced := 10 }] }],
           nextInvoiceId := 2 },
         [BidOutcome.placed]) := by
  decide

theorem placeBid_fst_of_not_accepted (s : State) (invoiceId : Nat) (amount : JsNumber) (now : Int)
    (h : ¬ bidAccepted s invoiceId amount now) :
    (placeBid s invoiceId amount now).1 = s := by
  have hno : ∀ inv ∈ s.invoices,
      (placeBidInvoice s.currentUser invoiceId amount now inv).2 ≠ BidOutcome.placed := by
    intro inv hinv e
    apply h
    unfold bidAccepted placeBid
    simp only [List.mem_filter, List.mem_map]
    exact ⟨⟨_, ⟨inv, hinv, rfl⟩, e⟩, by decide⟩
  have hinvs : (s.invoices.map (placeBidInvoice s.currentUser invoiceId amount now)).map
      Prod.fst = s.invoices := by
    rw [List.map_map]
    conv_rhs => rw [← List.map_id s.invoices]
    exact List.map_congr_left
      (fun inv hinv => placeBidInvoice_fst_of_not_placed _ _ _ _ _ (hno inv hinv))
  have hdeb : debitPlaced amount s.currentUser
      ((s.invoices.map (placeBidInvoice s.currentUser invoiceId amount now)).map Prod.snd)
      = s.currentUser := by
    apply debitPlaced_of_not_placed
    simp only [List.mem_map, not_exists, not_and]
    rintro r ⟨inv, hinv, rfl⟩ e
    exact hno inv hinv e
  unfold placeBid
  simp only [hinvs, hdeb]

theorem exists_placed_of_accepted (s : State) (invoiceId : Nat) (amount : JsNumber) (now : Int)
    (h : bidAccepted s invoiceId amount now) :
    ∃ inv ∈ s.invoices,
      (placeBidInvoice s.currentUser invoiceId amount now inv).2 = BidOutcome.placed := by
  unfold bidAccepted placeBid at h
  simp only [List.mem_filter, List.mem_map] at h
  obtain ⟨⟨r, ⟨inv, hinv, rfl⟩, e⟩, _⟩ := h
  exact ⟨inv, hinv, e⟩

/-- C2: a `placeBid` call that places no bid (no invoice has the id, or the
invoice is finalized, or the time is over, or the bid is above the maximum,
below the minimum, or exceeds the wallet balance) returns the state it was
given: same invoices with the same bid lists, same wallet. -/
theorem placeBid_rejected_unchanged (s : State) (invoiceId : Nat) (amount : JsNumber) (now : Int)
    (h : ¬ bidAccepted s invoiceId amount now) :
    (placeBid s invoiceId amount now).1 = s :=
  placeBid_fst_of_not_accepted s invoiceId amount now h

/-- Witness for C2: a bid of 85 on `sampleInvoice` exceeds 100 - 20. -/
theorem placeBid_rejected_unchanged_witness :
    ¬ bidAccepted sampleState 1 85 10 ∧ (placeBid sampleState 1 85 10).1 = sampleState :=
  ⟨by decide, placeBid_rejected_unchanged sampleState 1 85 10 (by decide)⟩

/-! ## Bidding on an invoice whose time is up -/

theorem sweepInvoice_id (now : Int) (inv : Invoice) : (sweepInvoice now inv).id = inv.id := by
  unfold sweepInvoice
  split_ifs
  · split
    · split_ifs <;> rfl
    · rfl
  all_goals rfl

theorem sweepInvoice_manual (now : Int) (inv : Invoice)
    (hmanual : inv.autoAcceptHighest = false) (hfin : inv.finalized = false)
    (hnow : now ≥ inv.endTime) :
    sweepInvoice now inv = { inv with biddingEnded := true } := by
  unfold sweepInvoice
  simp [hmanual, hfin, hnow]

theorem manuallySelectBid_split (s : State) (pre post : List Invoice) (inv : Invoice)
    (invoiceId : Nat) (b : Bid)
    (hs : s.invoices = pre ++ inv :: post)
    (hpre : ∀ x ∈ pre, x.id ≠ invoiceId) (hpost : ∀ x ∈ post, x.id ≠ invoiceId) :
    (manuallySelectBid s invoiceId b).invoices =
      pre ++ manuallySelectBidInvoice invoiceId b inv :: post := by
  have e1 : pre.map (manuallySelectBidInvoice invoiceId b) = pre.map id :=
    List.map_congr_left (fun x hx => by simp [manuallySelectBidInvoice, hpre x hx])
  have e2 : post.map (manuallySelectBidInvoice invoiceId b) = post.map id :=
    List.map_congr_left (fun x hx => by simp [manuallySelectBidInvoice, hpost x hx])
  unfold manuallySelectBid
  simp only [hs, List.map_append, List.map_cons, e1, e2, List.map_id]

/-- C3 as amended: when a sweep at `now ≥ endTime` meets a manual-mode invoice
that is not finalized (ids unique in the store), it sets `biddingEnded`; every
later `placeBid` on it at a call time `t ≥ now` with `t > endTime`, for every
amount and every wallet, shows the toast of the time check (not the one of the
finalized check) and returns the state unchanged; and `manuallySelectBid` with
any of its bids finalizes it with that bid as `winningBid`. -/
theorem placeBid_after_manual_end (s : State) (pre post : List Invoice) (inv : Invoice)
    (now : Int)
    (hs : s.invoices = pre ++ inv :: post)
    (hid : (s.invoices.map Invoice.id).Nodup)
    (hmanual : inv.autoAcceptHighest = false)
    (hfin : inv.finalized = false)
    (hnow : now ≥ inv.endTime) :
    (sweep s now).invoices =
        pre.map (sweepInvoice now) ++ { inv with biddingEnded := true }
          :: post.map (sweepInvoice now)
    ∧ (∀ (wallet : User) (amount : JsNumber) (t : Int), t ≥ now → t > inv.endTime →
        placeBid { sweep s now with currentUser := wallet } inv.id amount t =
          ({ sweep s now with currentUser := wallet }, [BidOutcome.timeOver]))
    ∧ (∀ b ∈ inv.bids,
        (manuallySelectBid (sweep s now) inv.id b).invoices =
          pre.map (sweepInvoice now)
            ++ { inv with biddingEnded := true, finalized := true, winningBid := some b }
            :: post.map (sweepInvoice now)) := by
  obtain ⟨hpre, hpost⟩ := ids_ne_of_nodup (hs ▸ hid)
  have hpre2 : ∀ x ∈ pre.map (sweepInvoice now), x.id ≠ inv.id := by
    intro x hx
    obtain ⟨y, hy, rfl⟩ := List.mem_map.mp hx
    rw [sweepInvoice_id]
    exact hpre y hy
  have hpost2 : ∀ x ∈ post.map (sweepInvoice now), x.id ≠ inv.id := by
    intro x hx
    obtain ⟨y, hy, rfl⟩ := List.mem_map.mp hx
    rw [sweepInvoice_id]
    exact hpost y hy
  have hsw : (sweep s now).invoices =
      pre.map (sweepInvoice now) ++ { inv with biddingEnded := true }
        :: post.map (sweepInvoice now) := by
    unfold sweep
    simp only [hs, List.map_append, List.map_cons, sweepInvoice_manual now inv hmanual hfin hnow]
  refine ⟨hsw, ?_, ?_⟩
  · intro wallet amount t _ ht
    have h := placeBid_split { sweep s now with currentUser := wallet }
      (pre.map (sweepInvoice now)) (post.map (sweepInvoice now))
      { inv with biddingEnded := true } inv.id amount t hsw hpre2 hpost2
    rw [h]
    simp [placeBidInvoice, hfin, ht, debitPlaced, hsw]
  · intro b _
    have h := manuallySelectBid_split (sweep s now)
      (pre.map (sweepInvoice now)) (post.map (sweepInvoice now))
      { inv with biddingEnded := true } inv.id b hsw hpre2 hpost2
    rw [h]
    simp [manuallySelectBidInvoice, hfin, finalizeInvoice]

/-- Counterexample to C3 as stated: `manualState` is reached from the state at
mount by an upload and two bids; the sweep at instant 1000, the end time of
`manualInvoice`, sets `biddingEnded`; a bid of 70 at that same instant is then
placed, extending the bid list and debiting the wallet; and a bid at instant
1001 is turned down by the time check, not by the finalized check. -/
theorem placeBid_after_manual_end_counterexample :
    run (initialState 2000)
        [Call.createInvoice
           { title := "m", amount := some 100, autoAcceptHighest := false,
             endTime := some 1000, minBid := none },
         Call.placeBid 1 50 10,
         Call.placeBid 1 60 20] = manualState
    ∧ manualInvoice.autoAcceptHighest = false
    ∧ (1000 : Int) ≥ manualInvoice.endTime
    ∧ (sweep manualState 1000).invoices = [{ manualInvoice with biddingEnded := true }]
    ∧ (placeBid (sweep manualState 1000) 1 70 1000).2 = [BidOutcome.placed]
    ∧ (placeBid (sweep manualState 1000) 1 70 1000).1.invoices =
        [{ manualInvoice with
           biddingEnded := true,
           bids := manualInvoice.bids ++ [{ userId := 1, amount := 70, timePlaced := 1000 }] }]
    ∧ (placeBid (sweep manualState 1000) 1 70 1000).1.currentUser.walletBalance = 1820
    ∧ (placeBid (sweep manualState 1000) 1 70 1001).2 = [BidOutcome.timeOver] := by
  decide

/-- Witness for C3 as amended: `manualState` swept at instant 1000, then a bid
of 70 at instant 1001 with a wallet of 5000, and a manual choice of the bid
of 60. -/
theorem placeBid_after_manual_end_witness :
    (manualState.invoices = [] ++ manualInvoice :: []
      ∧ (manualState.invoices.map Invoice.id).Nodup
      ∧ manualInvoice.autoAcceptHighest = false
      ∧ manualInvoice.finalized = false
      ∧ (1000 : Int) ≥ manualInvoice.endTime)
    ∧ placeBid { sweep manualState 1000 with currentUser := { id := 1, walletBalance := 5000 } }
        manualInvoice.id 70 1001 =
          ({ sweep manualState 1000 with currentUser := { id := 1, walletBalance := 5000 } },
            [BidOutcome.timeOver])
    ∧ (manuallySelectBid (sweep manualState 1000) manualInvoice.id
          { userId := 1, amount := 60, timePlaced := 20 }).invoices =
        [{ manualInvoice with
           biddingEnded := true, finalized := true,
           winningBid := some { userId := 1, amount := 60, timePlaced := 20 } }] :=
  ⟨⟨rfl, by decide, rfl, rfl, by decide⟩,
   (placeBid_after_manual_end manualState [] [] manualInvoice 1000 rfl (by decide) rfl rfl
      (by decide)).2.1 { id := 1, walletBalance := 5000 } 70 1001 (by decide) (by decide),
   (placeBid_after_manual_end manualState [] [] manualInvoice 1000 rfl (by decide) rfl rfl
      (by decide)).2.2 { userId := 1, amount := 60, timePlaced := 20 } (by decide)⟩

/-! ## The highest bid -/

@[simp] theorem js_lt_irrefl (a : JsNumber) : ¬ a < a := by
  cases a <;> simp

/-- The scan returns its start value or a bid of the list, whatever the
amounts are. -/
theorem highestBid_acc_or_mem (acc : Bid) (l : List Bid) :
    highestBid acc l = acc ∨ highestBid acc l ∈ l := by
  induction l generalizing acc with
  | nil => exact Or.inl rfl
  | cons x xs ih =>
    by_cases hx : x.amount > acc.amount
    · have e : highestBid acc (x :: xs) = highestBid x xs := by
        simp [highestBid, hx]
      rw [e]
      rcases ih x with h | h
      · exact Or.inr (by rw [h]; exact List.mem_cons_self x xs)
      · exact Or.inr (List.mem_cons_of_mem x h)
    · have e : highestBid acc (x :: xs) = highestBid acc xs := by
        simp [highestBid, hx]
      rw [e]
      rcases ih acc with h | h
      · exact Or.inl h
      · exact Or.inr (List.mem_cons_of_mem x h)

theorem highestBid_mem (first : Bid) (rest : List Bid) :
    highestBid first (first :: rest) ∈ first :: rest := by
  rcases highestBid_acc_or_mem first (first :: rest) with h | h
  · rw [h]
    exact List.mem_cons_self first rest
  · exact h

/-- The left-to-right scan over numbers, started at `acc`: either no bid of `l`
beats `acc`, or the result sits in `l` with strictly smaller bids (and `acc`)
before it and no larger bid after it. -/
theorem highestBid_scan (acc : Bid) (l : List Bid) (hacc : acc.amount ≠ JsNumber.nan)
    (hl : ∀ b ∈ l, b.amount ≠ JsNumber.nan) :
    (highestBid acc l = acc ∧ ∀ b ∈ l, b.amount ≤ acc.amount) ∨
    (∃ pre post, l = pre ++ highestBid acc l :: post
      ∧ (∀ b ∈ pre, b.amount < (highestBid acc l).amount)
      ∧ acc.amount < (highestBid acc l).amount
      ∧ (∀ b ∈ post, b.amount ≤ (highestBid acc l).amount)) := by
  induction l generalizing acc with
  | nil => exact Or.inl ⟨rfl, by simp⟩
  | cons x xs ih =>
    have hxn : x.amount ≠ JsNumber.nan := hl x (List.mem_cons_self x xs)
    have hxs : ∀ b ∈ xs, b.amount ≠ JsNumber.nan :=
      fun b hb => hl b (List.mem_cons_of_mem x hb)
    by_cases hx : x.amount > acc.amount
    · have e : highestBid acc (x :: xs) = highestBid x xs := by
        simp [highestBid, hx]
      rw [e]
      rcases ih x hxn hxs with ⟨h1, h2⟩ | ⟨pre, post, h1, h2, h3, h4⟩
      · refine Or.inr ⟨[], xs, ?_, by simp, ?_, ?_⟩
        · simp [h1]
        · rw [h1]; exact hx
        · rw [h1]; exact h2
      · refine Or.inr ⟨x :: pre, post, ?_, ?_, ?_, h4⟩
        · rw [List.cons_append, ← h1]
        · intro b hb
          rcases List.mem_cons.mp hb with rfl | hb
          · exact h3
          · exact h2 b hb
        · exact js_lt_trans hx h3
    · have e : highestBid acc (x :: xs) = highestBid acc xs := by
        simp [highestBid, hx]
      have hxle : x.amount ≤ acc.amount := js_le_of_not_lt hacc hxn hx
      rw [e]
      rcases ih acc hacc hxs with ⟨h1, h2⟩ | ⟨pre, post, h1, h2, h3, h4⟩
      · refine Or.inl ⟨h1, ?_⟩
        intro b hb
        rcases List.mem_cons.mp hb with rfl | hb
        · exact hxle
        · exact h2 b hb
      · refine Or.inr ⟨x :: pre, post, ?_, ?_, h3, h4⟩
        · rw [List.cons_append, ← h1]
        · intro b hb
          rcases List.mem_cons.mp hb with rfl | hb
          · exact js_lt_of_le_of_lt hxle h3
          · exact h2 b hb

/-- The scan over a list of numbers started at its own head returns the first
bid of maximum amount. -/
theorem highestBid_split (first : Bid) (rest : List Bid)
    (hnum : ∀ b ∈ first :: rest, b.amount ≠ JsNumber.nan) :
    ∃ pre post, first :: rest = pre ++ highestBid first (first :: rest) :: post
      ∧ (∀ b ∈ pre, b.amount < (highestBid first (first :: rest)).amount)
      ∧ (∀ b ∈ post, b.amount ≤ (highestBid first (first :: rest)).amount) := by
  have e : highestBid first (first :: rest) = highestBid first rest := by
    simp [highestBid]
  have hf : first.amount ≠ JsNumber.nan := hnum first (List.mem_cons_self first rest)
  have hr : ∀ b ∈ rest, b.amount ≠ JsNumber.nan :=
    fun b hb => hnum b (List.mem_cons_of_mem first hb)
  rw [e]
  rcases highestBid_scan first rest hf hr with ⟨h1, h2⟩ | ⟨pre, post, h1, h2, h3, h4⟩
  · refine ⟨[], rest, by simp [h1], by simp, ?_⟩
    rw [h1]; exact h2
  · refine ⟨first :: pre, post, ?_, ?_, h4⟩
    · rw [List.cons_append, ← h1]
    · intro b hb
      rcases List.mem_cons.mp hb with rfl | hb
      · exact h3
      · exact h2 b hb

theorem highestBid_max (first : Bid) (rest : List Bid)
    (hnum : ∀ b ∈ first :: rest, b.amount ≠ JsNumber.nan) :
    ∀ b ∈ first :: rest, b.amount ≤ (highestBid first (first :: rest)).amount := by
  obtain ⟨pre, post, h, h1, h2⟩ := highestBid_split first rest hnum
  intro b hb
  have hb2 : b ∈ pre ++ highestBid first (first :: rest) :: post := h ▸ hb
  rcases List.mem_append.mp hb2 with hb3 | hb3
  · exact js_le_of_lt (h1 b hb3)
  · rcases List.mem_cons.mp hb3 with e | hb4
    · rw [e]
      exact js_le_refl (hnum _ (highestBid_mem first rest))
    · exact h2 b hb4

/-! ## One sweep step -/

theorem sweepInvoice_auto_cons (now : Int) (inv : Invoice) (first : Bid) (rest : List Bid)
    (hfin : inv.finalized = false) (hnow : now ≥ inv.endTime)
    (hauto : inv.autoAcceptHighest = true) (hb : inv.bids = first :: rest) :
    sweepInvoice now inv =
      if (highestBid first (first :: rest)).amount ≥ inv.minBid then
        finalizeInvoice inv (highestBid first (first :: rest))
      else { inv with finalized := true } := by
  obtain ⟨id, bz, ti, am, auto, et, bids, fin, be, mb, wb⟩ := inv
  simp only at hfin hnow hauto hb
  subst hfin hauto hb
  simp [sweepInvoice, hnow]

theorem sweepInvoice_auto_nil (now : Int) (inv : Invoice)
    (hfin : inv.finalized = false) (hnow : now ≥ inv.endTime)
    (hauto : inv.autoAcceptHighest = true) (hb : inv.bids = []) :
    sweepInvoice now inv = { inv with finalized := true } := by
  obtain ⟨id, bz, ti, am, auto, et, bids, fin, be, mb, wb⟩ := inv
  simp only at hfin hnow hauto hb
  subst hfin hauto hb
  simp [sweepInvoice, hnow]

theorem sweepInvoice_of_finalized (now : Int) (inv : Invoice) (hfin : inv.finalized = true) :
    sweepInvoice now inv = inv := by
  unfold sweepInvoice
  simp [hfin]

theorem sweepInvoice_early (now : Int) (inv : Invoice) (hnow : now < inv.endTime) :
    sweepInvoice now inv = inv := by
  have h : ¬ now ≥ inv.endTime := not_le.mpr hnow
  unfold sweepInvoice
  simp only [h, if_false, ite_self]

theorem sweepInvoice_bids (now : Int) (inv : Invoice) :
    (sweepInvoice now inv).bids = inv.bids := by
  unfold sweepInvoice
  split_ifs
  · split
    · split_ifs <;> rfl
    · rfl
  all_goals rfl

theorem sweepInvoice_amount (now : Int) (inv : Invoice) :
    (sweepInvoice now inv).amount = inv.amount := by
  unfold sweepInvoice
  split_ifs
  · split
    · split_ifs <;> rfl
    · rfl
  all_goals rfl

/-- C4: one sweep step on an invoice that is not finalized, at `now ≥ endTime`:
in auto-accept mode, when a bid `m` of maximum amount has `m.amount ≥ minBid`
the invoice becomes finalized with `winningBid` a bid of maximum amount; when
`m.amount < minBid`, or when there is no bid, only `finalized` is set and
`winningBid` is not assigned (it keeps its value, which is unset on an invoice
that was never finalized); in manual mode only `biddingEnded` is set. At
`now < endTime` the invoice is returned as it is, and the bid list is the same
in every case. -/
theorem sweepInvoice_cases (now : Int) (inv : Invoice) :
    (inv.finalized = false → now ≥ inv.endTime → inv.autoAcceptHighest = true →
      ∀ m ∈ inv.bids, (∀ b ∈ inv.bids, b.amount ≤ m.amount) → m.amount ≥ inv.minBid →
        ∃ w ∈ inv.bids, (∀ b ∈ inv.bids, b.amount ≤ w.amount) ∧
          sweepInvoice now inv = { inv with finalized := true, winningBid := some w })
    ∧ (inv.finalized = false → now ≥ inv.endTime → inv.autoAcceptHighest = true →
      ∀ m ∈ inv.bids, (∀ b ∈ inv.bids, b.amount ≤ m.amount) → m.amount < inv.minBid →
        sweepInvoice now inv = { inv with finalized := true })
    ∧ (inv.finalized = false → now ≥ inv.endTime → inv.autoAcceptHighest = true →
      inv.bids = [] → sweepInvoice now inv = { inv with finalized := true })
    ∧ (inv.finalized = false → now ≥ inv.endTime → inv.autoAcceptHighest = false →
      sweepInvoice now inv = { inv with biddingEnded := true })
    ∧ (now < inv.endTime → sweepInvoice now inv = inv)
    ∧ (sweepInvoice now inv).bids = inv.bids := by
  refine ⟨?_, ?_, ?_, ?_, ?_, ?_⟩
  · intro hfin hnow hauto m hm hmax hmin
    obtain ⟨first, rest, hb⟩ : ∃ first rest, inv.bids = first :: rest := by
      cases hbs : inv.bids with
      | nil => rw [hbs] at hm; exact absurd hm (List.not_mem_nil m)
      | cons first rest => exact ⟨first, rest, rfl⟩
    have hnum : ∀ b ∈ first :: rest, b.amount ≠ JsNumber.nan :=
      fun b hbm => js_ne_nan_of_le_left (hmax b (hb ▸ hbm))
    have hmem := highestBid_mem first rest
    have hle := highestBid_max first rest hnum
    have hge : (highestBid first (first :: rest)).amount ≥ inv.minBid :=
      js_le_trans hmin (hle m (hb ▸ hm))
    refine ⟨highestBid first (first :: rest), hb ▸ hmem, ?_, ?_⟩
    · intro b hbm
      exact hle b (hb ▸ hbm)
    · rw [sweepInvoice_auto_cons now inv first rest hfin hnow hauto hb, if_pos hge]
      rfl
  · intro hfin hnow hauto m hm hmax hmin
    obtain ⟨first, rest, hb⟩ : ∃ first rest, inv.bids = first :: rest := by
      cases hbs : inv.bids with
      | nil => rw [hbs] at hm; exact absurd hm (List.not_mem_nil m)
      | cons first rest => exact ⟨first, rest, rfl⟩
    have hmem := highestBid_mem first rest
    have hlt : ¬ (highestBid first (first :: rest)).amount ≥ inv.minBid :=
      js_not_le_of_lt (js_lt_of_le_of_lt (hmax _ (hb ▸ hmem)) hmin)
    rw [sweepInvoice_auto_cons now inv first rest hfin hnow hauto hb, if_neg hlt]
  · intro hfin hnow hauto hb
    exact sweepInvoice_auto_nil now inv hfin hnow hauto hb
  · intro hfin hnow hmanual
    exact sweepInvoice_manual now inv hmanual hfin hnow
  · intro hnow
    exact sweepInvoice_early now inv hnow
  · exact sweepInvoice_bids now inv

/-- Witness for C4: `autoInvoice` (one bid of 160) swept at its end time with
minimum bid 150, with minimum bid 170, and without bids; `manualInvoice` swept
at its end time; and `autoInvoice` swept one instant before its end time. -/
theorem sweepInvoice_cases_witness :
    (∃ w ∈ autoInvoice.bids, (∀ b ∈ autoInvoice.bids, b.amount ≤ w.amount) ∧
      sweepInvoice 1000 autoInvoice =
        { autoInvoice with finalized := true, winningBid := some w })
    ∧ sweepInvoice 1000 { autoInvoice with minBid := 170 } =
        { autoInvoice with minBid := 170, finalized := true }
    ∧ sweepInvoice 1000 { autoInvoice with bids := [] } =
        { autoInvoice with bids := [], finalized := true }
    ∧ sweepInvoice 1000 manualInvoice = { manualInvoice with biddingEnded := true }
    ∧ sweepInvoice 999 autoInvoice = autoInvoice :=
  ⟨(sweepInvoice_cases 1000 autoInvoice).1 rfl (by decide) rfl
      { userId := 1, amount := 160, timePlaced := 10 } (by decide) (by decide) (by decide),
   (sweepInvoice_cases 1000 { autoInvoice with minBid := 170 }).2.1 rfl (by decide) rfl
      { userId := 1, amount := 160, timePlaced := 10 } (by decide) (by decide) (by decide),
   (sweepInvoice_cases 1000 { autoInvoice with bids := [] }).2.2.1 rfl (by decide) rfl rfl,
   (sweepInvoice_cases 1000 manualInvoice).2.2.2.1 rfl (by decide) rfl,
   (sweepInvoice_cases 999 autoInvoice).2.2.2.2.1 (by decide)⟩

/-- On lists of numbers the scan of the sweep returns the first bid of maximum
amount: `first :: rest` splits around it with only strictly smaller amounts
before it and no larger amount after it; an expired auto-accept invoice with
that bid list whose highest amount reaches `minBid` is finalized with exactly
that bid; and for bids `[(A, 100, t1), (B, 100, t2)]` with `minBid = 0` the
sweep finalizes with the bid of `A`. -/
theorem highestBid_first_maximum_of_numbers (first : Bid) (rest : List Bid) :
    ((∀ b ∈ first :: rest, b.amount ≠ JsNumber.nan) →
      ∃ pre post, first :: rest = pre ++ highestBid first (first :: rest) :: post
        ∧ (∀ b ∈ pre, b.amount < (highestBid first (first :: rest)).amount)
        ∧ (∀ b ∈ post, b.amount ≤ (highestBid first (first :: rest)).amount))
    ∧ (∀ (inv : Invoice) (now : Int),
        inv.bids = first :: rest → inv.autoAcceptHighest = true → inv.finalized = false →
        now ≥ inv.endTime → (highestBid first (first :: rest)).amount ≥ inv.minBid →
        sweepInvoice now inv =
          { inv with
            finalized := true, winningBid := some (highestBid first (first :: rest)) })
    ∧ (∀ (inv : Invoice) (now : Int) (A B : Nat) (t1 t2 : Int),
        inv.bids = [{ userId := A, amount := 100, timePlaced := t1 },
                    { userId := B, amount := 100, timePlaced := t2 }] →
        inv.autoAcceptHighest = true → inv.minBid = 0 → inv.finalized = false →
        now ≥ inv.endTime →
        sweepInvoice now inv =
          { inv with
            finalized := true,
            winningBid := some { userId := A, amount := 100, timePlaced := t1 } }) := by
  refine ⟨highestBid_split first rest, ?_, ?_⟩
  · intro inv now hb hauto hfin hnow hge
    rw [sweepInvoice_auto_cons now inv first rest hfin hnow hauto hb, if_pos hge]
    rfl
  · intro inv now A B t1 t2 hb hauto hmin hfin hnow
    rw [sweepInvoice_auto_cons now inv _ _ hfin hnow hauto hb]
    simp [highestBid, hmin, finalizeInvoice]

/-- The lemma on numbers at work: the bid list `[50, 60, 60]`, and `tieInvoice`
swept at its end time. -/
theorem highestBid_first_maximum_of_numbers_example :
    highestBid { userId := 1, amount := 50, timePlaced := 1 }
        [{ userId := 1, amount := 50, timePlaced := 1 },
         { userId := 2, amount := 60, timePlaced := 2 },
         { userId := 3, amount := 60, timePlaced := 3 }]
      = { userId := 2, amount := 60, timePlaced := 2 }
    ∧ sweepInvoice 1000 tieInvoice =
        { tieInvoice with
          finalized := true,
          winningBid := some { userId := 7, amount := 100, timePlaced := 10 } } :=
  ⟨by decide,
   (highestBid_first_maximum_of_numbers { userId := 7, amount := 100, timePlaced := 10 }
      [{ userId := 8, amount := 100, timePlaced := 20 }]).2.2 tieInvoice 1000 7 8 10 20
      rfl rfl rfl rfl (by decide)⟩

/-- C5 fails on the code: an upload without minimum bid, Confirm on an empty bid
field (`placeBid` with `NaN`) and a bid of 160 leave the bid list
`[NaN, 160]`; the reduce of the sweep keeps the first bid, because
`160 > NaN` is false, so the selected bid is not the first bid of maximum
amount: the bid of 160 after it is not `≤` it; and the sweep at the end time,
testing `NaN >= 0`, closes the invoice without a winning bid. -/
theorem highestBid_nan_first :
    (run (initialState 2000)
        [Call.createInvoice openForm,
         Call.placeBid 1 JsNumber.nan 10,
         Call.placeBid 1 160 20]).invoices = [nanFirstInvoice]
    ∧ highestBid { userId := 1, amount := JsNumber.nan, timePlaced := 10 }
        nanFirstInvoice.bids = { userId := 1, amount := JsNumber.nan, timePlaced := 10 }
    ∧ ¬ ((160 : JsNumber) ≤ JsNumber.nan)
    ∧ sweepInvoice 1000 nanFirstInvoice = { nanFirstInvoice with finalized := true } := by
  decide

/-! ## Invariants of call sequences -/

/-- A property kept by every call holds after every sequence of calls. -/
theorem run_invariant (P : State → Prop) (hstep : ∀ s c, P s → P (step s c))
    (s : State) (hs : P s) (calls : List Call) : P (run s calls) := by
  induction calls generalizing s with
  | nil => exact hs
  | cons c cs ih => exact ih (step s c) (hstep s c hs)

theorem placeBidInvoice_fst_cases (u : User) (invoiceId : Nat) (a : JsNumber) (n : Int) (inv : Invoice) :
    (placeBidInvoice u invoiceId a n inv).1 = inv ∨
    (¬ a > inv.amount - 20 ∧ inv.finalized = false ∧
      (placeBidInvoice u invoiceId a n inv).1 =
        { inv with bids := inv.bids ++ [{ userId := u.id, amount := a, timePlaced := n }] }) := by
  by_cases h : (placeBidInvoice u invoiceId a n inv).2 = BidOutcome.placed
  · have h2 := (placeBidInvoice_placed_iff u invoiceId a n inv).mp h
    exact Or.inr ⟨h2.2.2.2.1, h2.2.1, placeBidInvoice_fst_of_placed u invoiceId a n inv h⟩
  · exact Or.inl (placeBidInvoice_fst_of_not_placed u invoiceId a n inv h)

theorem mem_placeBid_invoices {s : State} {invoiceId : Nat} {a : JsNumber} {n : Int} {x : Invoice}
    (hx : x ∈ (placeBid s invoiceId a n).1.invoices) :
    ∃ inv ∈ s.invoices, x = (placeBidInvoice s.currentUser invoiceId a n inv).1 := by
  unfold placeBid at hx
  simp only [List.map_map, List.mem_map, Function.comp_apply] at hx
  obtain ⟨inv, hinv, rfl⟩ := hx
  exact ⟨inv, hinv, rfl⟩

theorem mem_handleUploadInvoice_invoices {s : State} {f : InvoiceForm} {x : Invoice}
    (hx : x ∈ (handleUploadInvoice s f).invoices) :
    x ∈ s.invoices ∨
      (x.bids = [] ∧ x.winningBid = none ∧ x.finalized = false ∧ x.id = s.nextInvoiceId) := by
  unfold handleUploadInvoice at hx
  split at hx
  · by_cases ht : f.title = ""
    · rw [if_pos ht] at hx
      exact Or.inl hx
    · rw [if_neg ht] at hx
      simp only [List.mem_append, List.mem_singleton] at hx
      rcases hx with hx | rfl
      · exact Or.inl hx
      · exact Or.inr ⟨rfl, rfl, rfl, rfl⟩
  · exact Or.inl hx

theorem sweepInvoice_winningBid (now : Int) (inv : Invoice) (w : Bid)
    (h : (sweepInvoice now inv).winningBid = some w) :
    inv.winningBid = some w ∨ ((sweepInvoice now inv).finalized = true ∧ w ∈ inv.bids) := by
  by_cases hfin : inv.finalized = false
  · by_cases hnow : now ≥ inv.endTime
    · by_cases hauto : inv.autoAcceptHighest = true
      · cases hb : inv.bids with
        | nil =>
          rw [sweepInvoice_auto_nil now inv hfin hnow hauto hb] at h
          exact Or.inl h
        | cons first rest =>
          rw [sweepInvoice_auto_cons now inv first rest hfin hnow hauto hb] at h ⊢
          split_ifs at h ⊢ with hge
          · simp only [finalizeInvoice, Option.some.injEq] at h
            rw [← h]
            exact Or.inr ⟨rfl, highestBid_mem first rest⟩
          · exact Or.inl h
      · rw [sweepInvoice_manual now inv (by simpa using hauto) hfin hnow] at h
        exact Or.inl h
    · rw [sweepInvoice_early now inv (not_le.mp hnow)] at h
      exact Or.inl h
  · rw [sweepInvoice_of_finalized now inv (by simpa using hfin)] at h
    exact Or.inl h

theorem handleDepositMoney_invoices (s : State) (amount : Option Int) :
    (handleDepositMoney s amount).invoices = s.invoices := by
  cases amount <;> rfl

theorem winningBidsValid_step (s : State) (c : Call) (hP : winningBidsValid s)
    (hc : choiceInBids s c) : winningBidsValid (step s c) := by
  intro x hx w hw
  cases c with
  | createInvoice form =>
    rcases mem_handleUploadInvoice_invoices hx with h | ⟨_, h, _, _⟩
    · exact hP x h w hw
    · rw [h] at hw
      exact absurd hw (by simp)
  | placeBid invoiceId bidAmount now =>
    obtain ⟨inv, hinv, rfl⟩ := mem_placeBid_invoices hx
    rcases placeBidInvoice_fst_cases s.currentUser invoiceId bidAmount now inv with e | ⟨_, _, e⟩
    · rw [e] at hw ⊢
      exact hP inv hinv w hw
    · rw [e] at hw ⊢
      obtain ⟨h1, h2⟩ := hP inv hinv w hw
      exact ⟨h1, List.mem_append_left _ h2⟩
  | manualFinalize invoiceId selectedBid =>
    obtain ⟨inv, hinv, rfl⟩ := List.mem_map.mp hx
    unfold manuallySelectBidInvoice at hw ⊢
    by_cases hid : inv.id = invoiceId
    · by_cases hfin : inv.finalized = true
      · rw [if_pos hid, if_pos hfin] at hw ⊢
        exact hP inv hinv w hw
      · rw [if_pos hid, if_neg hfin] at hw ⊢
        simp only [finalizeInvoice, Option.some.injEq] at hw
        rw [← hw]
        exact ⟨rfl, hc inv hinv hid (by simpa using hfin)⟩
    · rw [if_neg hid] at hw ⊢
      exact hP inv hinv w hw
  | deposit amount =>
    have hx2 : x ∈ s.invoices := by
      rw [← handleDepositMoney_invoices s amount]
      exact hx
    exact hP x hx2 w hw
  | sweep now =>
    obtain ⟨inv, hinv, rfl⟩ := List.mem_map.mp hx
    rcases sweepInvoice_winningBid now inv w hw with h | ⟨h1, h2⟩
    · obtain ⟨h1, h2⟩ := hP inv hinv w h
      rw [sweepInvoice_of_finalized now inv h1]
      exact ⟨h1, h2⟩
    · rw [sweepInvoice_bids]
      exact ⟨h1, h2⟩

/-! ## The winning bid belongs to the invoice -/

/-- Counterexample to C6 as stated: after an upload and a `manualFinalize` call
that passes a bid nobody placed, invoice 1 is finalized with that bid as
`winningBid` while its bid list is empty. -/
theorem winningBid_forged_counterexample :
    (run (initialState 2000)
      [Call.createInvoice
         { title := "a", amount := some 100, autoAcceptHighest := false,
           endTime := some 1000, minBid := none },
       Call.manualFinalize 1 { userId := 9, amount := 999, timePlaced := 0 }]).invoices
    = [{ id := 1, businessId := 1, title := "a", amount := 100, autoAcceptHighest := false,
         endTime := 1000, bids := [], finalized := true, biddingEnded := false, minBid := 0,
         winningBid := some { userId := 9, amount := 999, timePlaced := 0 } }] := by
  decide

/-- C6 as amended: after any sequence of calls from the empty store in which
every `manualFinalize` call passes a bid that is in the bid list of the invoice
it names (whenever that invoice exists and is not finalized), every invoice
that has a `winningBid` is finalized and holds that bid in its own bid list. -/
theorem winningBid_in_bids (walletBalance : Int) (calls : List Call)
    (hcalls : choicesInBids (initialState walletBalance) calls) :
    ∀ inv ∈ (run (initialState walletBalance) calls).invoices,
      ∀ w, inv.winningBid = some w → inv.finalized = true ∧ w ∈ inv.bids := by
  have key : ∀ (cs : List Call) (s : State), winningBidsValid s → choicesInBids s cs →
      winningBidsValid (run s cs) := by
    intro cs
    induction cs with
    | nil => intro s hs _; exact hs
    | cons c cs ih =>
      intro s hs hc
      exact ih (step s c) (winningBidsValid_step s c hs hc.1) hc.2
  apply key calls _ _ hcalls
  intro inv hinv
  exact absurd hinv (List.not_mem_nil inv)

/-- Witness for C6 as amended: an upload, a bid of 80, and a manual choice of
that bid, which leave `chosenInvoice` in the store. -/
theorem winningBid_in_bids_witness :
    choicesInBids (initialState 2000)
      [Call.createInvoice
         { title := "a", amount := some 100, autoAcceptHighest := false,
           endTime := some 1000, minBid := none },
       Call.placeBid 1 80 10,
       Call.manualFinalize 1 { userId := 1, amount := 80, timePlaced := 10 }]
    ∧ chosenInvoice ∈ (run (initialState 2000)
        [Call.createInvoice
           { title := "a", amount := some 100, autoAcceptHighest := false,
             endTime := some 1000, minBid := none },
         Call.placeBid 1 80 10,
         Call.manualFinalize 1 { userId := 1, amount := 80, timePlaced := 10 }]).invoices
    ∧ chosenInvoice.winningBid = some { userId := 1, amount := 80, timePlaced := 10 }
    ∧ (chosenInvoice.finalized = true
        ∧ { userId := 1, amount := 80, timePlaced := 10 } ∈ chosenInvoice.bids) :=
  ⟨by decide, by decide, rfl,
   winningBid_in_bids 2000
     [Call.createInvoice
        { title := "a", amount := some 100, autoAcceptHighest := false,
          endTime := some 1000, minBid := none },
      Call.placeBid 1 80 10,
      Call.manualFinalize 1 { userId := 1, amount := 80, timePlaced := 10 }]
     (by decide) chosenInvoice (by decide)
     { userId := 1, amount := 80, timePlaced := 10 } rfl⟩

/-! ## The wallet balance -/

/-- C7 fails on the code: from the state at mount, with a wallet of 2000, one call
of `handleDepositMoney` with the text `-2500` (neither empty nor `NaN`, so the
guard lets it pass) leaves a wallet balance of -500. -/
theorem deposit_negative_wallet :
    (0 : JsNumber) ≤ (initialState 2000).currentUser.walletBalance
    ∧ (run (initialState 2000) [Call.deposit (some (-2500))]).currentUser.walletBalance
        = JsNumber.num (-500) := by
  decide

theorem placeBid_invoices_ids (s : State) (invoiceId : Nat) (a : JsNumber) (n : Int) :
    (placeBid s invoiceId a n).1.invoices.map Invoice.id = s.invoices.map Invoice.id := by
  unfold placeBid
  simp only [List.map_map]
  apply List.map_congr_left
  intro inv _
  simp only [Function.comp_apply]
  rcases placeBidInvoice_fst_cases s.currentUser invoiceId a n inv with e | ⟨_, _, e⟩ <;> rw [e]

theorem manuallySelectBid_invoices_ids (s : State) (invoiceId : Nat) (b : Bid) :
    (manuallySelectBid s invoiceId b).invoices.map Invoice.id = s.invoices.map Invoice.id := by
  unfold manuallySelectBid
  simp only [List.map_map]
  apply List.map_congr_left
  intro inv _
  simp only [Function.comp_apply]
  unfold manuallySelectBidInvoice
  split_ifs <;> rfl

theorem sweep_invoices_ids (s : State) (now : Int) :
    (sweep s now).invoices.map Invoice.id = s.invoices.map Invoice.id := by
  unfold sweep
  simp only [List.map_map]
  apply List.map_congr_left
  intro inv _
  exact sweepInvoice_id now inv

theorem idsFresh_of_same_ids {s t : State}
    (hids : t.invoices.map Invoice.id = s.invoices.map Invoice.id)
    (hnext : t.nextInvoiceId = s.nextInvoiceId) (h : idsFresh s) : idsFresh t := by
  refine ⟨hids ▸ h.1, ?_⟩
  intro x hx
  have hm : x.id ∈ s.invoices.map Invoice.id := hids ▸ List.mem_map_of_mem Invoice.id hx
  obtain ⟨y, hy, e⟩ := List.mem_map.mp hm
  rw [hnext, ← e]
  exact h.2 y hy

theorem idsFresh_handleUploadInvoice (s : State) (f : InvoiceForm) (h : idsFresh s) :
    idsFresh (handleUploadInvoice s f) := by
  unfold handleUploadInvoice
  split
  · by_cases ht : f.title = ""
    · rw [if_pos ht]
      exact h
    · rw [if_neg ht]
      constructor
      · simp only [List.map_append, List.map_cons, List.map_nil]
        rw [List.nodup_append]
        refine ⟨h.1, List.nodup_singleton _, ?_⟩
        intro a ha hb
        obtain ⟨y, hy, e⟩ := List.mem_map.mp ha
        have hlt := h.2 y hy
        rw [List.mem_singleton] at hb
        omega
      · intro x hx
        simp only [List.mem_append, List.mem_singleton] at hx
        rcases hx with hx | rfl
        · exact Nat.lt_succ_of_lt (h.2 x hx)
        · exact Nat.lt_succ_self _
  · exact h

theorem idsFresh_step (s : State) (c : Call) (h : idsFresh s) : idsFresh (step s c) := by
  cases c with
  | createInvoice form => exact idsFresh_handleUploadInvoice s form h
  | placeBid invoiceId bidAmount now =>
    exact idsFresh_of_same_ids (placeBid_invoices_ids s invoiceId bidAmount now) rfl h
  | manualFinalize invoiceId selectedBid =>
    exact idsFresh_of_same_ids (manuallySelectBid_invoices_ids s invoiceId selectedBid) rfl h
  | deposit amount =>
    refine idsFresh_of_same_ids ?_ ?_ h
    · show (handleDepositMoney s amount).invoices.map Invoice.id = _
      rw [handleDepositMoney_invoices]
    · cases amount <;> rfl
  | sweep now => exact idsFresh_of_same_ids (sweep_invoices_ids s now) rfl h

/-- In every state reached from the empty store the invoice ids are pairwise
different: the premise on ids of the single-call theorems on `placeBid`. -/
theorem run_ids_nodup (walletBalance : Int) (calls : List Call) :
    ((run (initialState walletBalance) calls).invoices.map Invoice.id).Nodup := by
  have h : idsFresh (run (initialState walletBalance) calls) := by
    apply run_invariant idsFresh idsFresh_step
    exact ⟨List.nodup_nil, fun inv hinv => absurd hinv (List.not_mem_nil inv)⟩
  exact h.1

theorem placeBid_wallet_nonneg (s : State) (invoiceId : Nat) (a : JsNumber) (n : Int)
    (hids : (s.invoices.map Invoice.id).Nodup) (ha : a ≠ JsNumber.nan)
    (hw : (0 : JsNumber) ≤ s.currentUser.walletBalance) :
    (0 : JsNumber) ≤ (placeBid s invoiceId a n).1.currentUser.walletBalance := by
  by_cases hacc : bidAccepted s invoiceId a n
  · obtain ⟨inv, hinv, hp⟩ := exists_placed_of_accepted s invoiceId a n hacc
    obtain ⟨pre, post, hs⟩ := List.append_of_mem hinv
    have hcond := (placeBidInvoice_placed_iff s.currentUser invoiceId a n inv).mp hp
    obtain ⟨hpre, hpost⟩ := ids_ne_of_nodup (hs ▸ hids)
    rw [hcond.1] at hpre hpost
    rw [placeBid_split s pre post inv invoiceId a n hs hpre hpost, hp]
    have h6 := hcond.2.2.2.2.2
    simp only [debitPlaced, List.foldl_cons, List.foldl_nil, if_true]
    cases hA : a with
    | nan => exact absurd hA ha
    | num x =>
      cases hW : s.currentUser.walletBalance with
      | nan =>
        rw [hW] at hw
        exact absurd hw (js_not_le_nan _)
      | num w =>
        rw [hA, hW] at h6
        rw [hW] at hw
        simp only [js_zero, js_num_lt_num, js_num_le_num, js_num_sub_num] at h6 hw ⊢
        omega
  · rw [placeBid_fst_of_not_accepted s invoiceId a n hacc]
    exact hw

/-- The wallet balance stays a number `≥ 0` along every call sequence from the
empty store in which no `deposit` call passes a negative number and no
`placeBid` call passes `NaN`: on numbers the debit of `placeBid` is guarded by
the balance check. -/
theorem wallet_nonneg_of_plain_amounts (walletBalance : Int) (calls : List Call)
    (hw : 0 ≤ walletBalance) (hplain : ∀ c ∈ calls, plainAmounts c) :
    (0 : JsNumber) ≤ (run (initialState walletBalance) calls).currentUser.walletBalance := by
  have key : ∀ (cs : List Call) (s : State), idsFresh s →
      (0 : JsNumber) ≤ s.currentUser.walletBalance →
      (∀ c ∈ cs, plainAmounts c) →
      (0 : JsNumber) ≤ (run s cs).currentUser.walletBalance := by
    intro cs
    induction cs with
    | nil => intro s _ h _; exact h
    | cons c cs ih =>
      intro s hids h hd
      refine ih (step s c) (idsFresh_step s c hids) ?_
        (fun d hdm => hd d (List.mem_cons_of_mem c hdm))
      have hc := hd c (List.mem_cons_self c cs)
      cases c with
      | createInvoice form =>
        show (0 : JsNumber) ≤ (handleUploadInvoice s form).currentUser.walletBalance
        unfold handleUploadInvoice
        split
        · by_cases ht : form.title = ""
          · rw [if_pos ht]; exact h
          · rw [if_neg ht]; exact h
        · exact h
      | placeBid invoiceId bidAmount now =>
        exact placeBid_wallet_nonneg s invoiceId bidAmount now hids.1 hc h
      | manualFinalize invoiceId selectedBid => exact h
      | deposit amount =>
        cases amount with
        | none => exact h
        | some m =>
          have hm : 0 ≤ m := hc
          show (0 : JsNumber) ≤ s.currentUser.walletBalance + JsNumber.num m
          cases hW : s.currentUser.walletBalance with
          | nan =>
            rw [hW] at h
            exact absurd h (js_not_le_nan _)
          | num w =>
            rw [hW] at h
            simp only [js_zero, js_num_le_num, js_num_add_num] at h ⊢
            omega
      | sweep now => exact h
  exact key calls (initialState walletBalance)
    ⟨List.nodup_nil, fun inv hinv => absurd hinv (List.not_mem_nil inv)⟩
    (by simpa [initialState] using hw) hplain

/-! ## Stored bids and the bounds -/

/-- C8 fails on the code: after one upload of face amount 100, Confirm on an
empty bid field calls `placeBid` with `NaN`; the check `bidAmount > maxAllowed`
is false for `NaN`, the bid is stored, and its amount is not
`≤ faceAmount - 20`. -/
theorem nan_bid_stored :
    (run (initialState 2000)
        [Call.createInvoice
           { title := "a", amount := some 100, autoAcceptHighest := false,
             endTime := some 1000, minBid := none },
         Call.placeBid 1 JsNumber.nan 10]).invoices
      = [{ sampleInvoice with
           bids := [{ userId := 1, amount := JsNumber.nan, timePlaced := 10 }] }]
    ∧ ¬ (({ userId := 1, amount := JsNumber.nan, timePlaced := 10 } : Bid).amount
          ≤ sampleInvoice.amount - 20) := by
  decide

theorem sweepInvoice_minBid (now : Int) (inv : Invoice) :
    (sweepInvoice now inv).minBid = inv.minBid := by
  unfold sweepInvoice
  split_ifs
  · split
    · split_ifs <;> rfl
    · rfl
  all_goals rfl

theorem mem_handleUploadInvoice_numbers {s : State} {f : InvoiceForm} {x : Invoice}
    (hx : x ∈ (handleUploadInvoice s f).invoices) :
    x ∈ s.invoices ∨
      (x.bids = [] ∧ x.amount ≠ JsNumber.nan ∧ x.minBid ≠ JsNumber.nan) := by
  unfold handleUploadInvoice at hx
  split at hx
  · by_cases ht : f.title = ""
    · rw [if_pos ht] at hx
      exact Or.inl hx
    · rw [if_neg ht] at hx
      simp only [List.mem_append, List.mem_singleton] at hx
      rcases hx with hx | rfl
      · exact Or.inl hx
      · refine Or.inr ⟨rfl, by simp, ?_⟩
        by_cases hauto : f.autoAcceptHighest = true
        · simp [hauto]
        · simp [hauto]
  · exact Or.inl hx

theorem bidsWithinBounds_step (s : State) (c : Call) (hP : bidsWithinBounds s)
    (hc : bidIsNumber c) : bidsWithinBounds (step s c) := by
  intro x hx
  cases c with
  | createInvoice form =>
    rcases mem_handleUploadInvoice_numbers hx with h | ⟨h1, h2, h3⟩
    · exact hP x h
    · refine ⟨h2, h3, ?_⟩
      intro b hb
      rw [h1] at hb
      exact absurd hb (List.not_mem_nil b)
  | placeBid invoiceId bidAmount now =>
    obtain ⟨inv, hinv, rfl⟩ := mem_placeBid_invoices hx
    obtain ⟨hf, hm, hb⟩ := hP inv hinv
    by_cases hp : (placeBidInvoice s.currentUser invoiceId bidAmount now inv).2
        = BidOutcome.placed
    · have hcond := (placeBidInvoice_placed_iff s.currentUser invoiceId bidAmount now inv).mp hp
      have hmax : ¬ bidAmount > inv.amount - 20 := hcond.2.2.2.1
      have hmin : ¬ bidAmount < inv.minBid := hcond.2.2.2.2.1
      have hnum : bidAmount ≠ JsNumber.nan := hc
      rw [placeBidInvoice_fst_of_placed s.currentUser invoiceId bidAmount now inv hp]
      refine ⟨hf, hm, ?_⟩
      intro b hbm
      rcases List.mem_append.mp hbm with h | h
      · exact hb b h
      · rw [List.mem_singleton.mp h]
        show bidAmount ≤ inv.amount - 20 ∧ inv.minBid ≤ bidAmount
        cases hA : bidAmount with
        | nan => exact absurd hA hnum
        | num a =>
          cases hF : inv.amount with
          | nan => exact absurd hF hf
          | num f =>
            cases hM : inv.minBid with
            | nan => exact absurd hM hm
            | num m =>
              rw [hA, hF] at hmax
              rw [hA, hM] at hmin
              simp only [js_ofNat, js_num_sub_num, js_num_lt_num, js_num_le_num, gt_iff_lt,
                not_lt] at hmax hmin ⊢
              exact ⟨hmax, hmin⟩
    · rw [placeBidInvoice_fst_of_not_placed s.currentUser invoiceId bidAmount now inv hp]
      exact ⟨hf, hm, hb⟩
  | manualFinalize invoiceId selectedBid =>
    obtain ⟨inv, hinv, rfl⟩ := List.mem_map.mp hx
    have e : (manuallySelectBidInvoice invoiceId selectedBid inv).bids = inv.bids
        ∧ (manuallySelectBidInvoice invoiceId selectedBid inv).amount = inv.amount
        ∧ (manuallySelectBidInvoice invoiceId selectedBid inv).minBid = inv.minBid := by
      unfold manuallySelectBidInvoice
      split_ifs <;> exact ⟨rfl, rfl, rfl⟩
    rw [e.1, e.2.1, e.2.2]
    exact hP inv hinv
  | deposit amount =>
    have hx2 : x ∈ s.invoices := by
      rw [← handleDepositMoney_invoices s amount]
      exact hx
    exact hP x hx2
  | sweep now =>
    obtain ⟨inv, hinv, rfl⟩ := List.mem_map.mp hx
    rw [sweepInvoice_bids, sweepInvoice_amount, sweepInvoice_minBid]
    exact hP inv hinv

/-- After any sequence of calls from the empty store in which no `placeBid`
call passes `NaN`, face amount and minimum bid of every invoice are numbers and
every stored bid has `minBid ≤ amount ≤ faceAmount - 20`. -/
theorem bids_within_bounds_of_number_bids (walletBalance : Int) (calls : List Call)
    (hcalls : ∀ c ∈ calls, bidIsNumber c) :
    bidsWithinBounds (run (initialState walletBalance) calls) := by
  have key : ∀ (cs : List Call) (s : State), bidsWithinBounds s →
      (∀ c ∈ cs, bidIsNumber c) → bidsWithinBounds (run s cs) := by
    intro cs
    induction cs with
    | nil => intro s hs _; exact hs
    | cons c cs ih =>
      intro s hs hc
      exact ih (step s c)
        (bidsWithinBounds_step s c hs (hc c (List.mem_cons_self c cs)))
        (fun d hd => hc d (List.mem_cons_of_mem c hd))
  apply key calls _ _ hcalls
  intro inv hinv
  exact absurd hinv (List.not_mem_nil inv)

/-! ## The sweep is idempotent -/

theorem sweepInvoice_idem (now : Int) (inv : Invoice) :
    sweepInvoice now (sweepInvoice now inv) = sweepInvoice now inv := by
  by_cases hfin : inv.finalized = false
  · by_cases hnow : now ≥ inv.endTime
    · by_cases hauto : inv.autoAcceptHighest = true
      · cases hb : inv.bids with
        | nil =>
          rw [sweepInvoice_auto_nil now inv hfin hnow hauto hb]
          exact sweepInvoice_of_finalized now _ rfl
        | cons first rest =>
          rw [sweepInvoice_auto_cons now inv first rest hfin hnow hauto hb]
          split_ifs
          · exact sweepInvoice_of_finalized now _ rfl
          · exact sweepInvoice_of_finalized now _ rfl
      · have hmanual : inv.autoAcceptHighest = false := by simpa using hauto
        rw [sweepInvoice_manual now inv hmanual hfin hnow]
        exact sweepInvoice_manual now _ hmanual hfin hnow
    · rw [sweepInvoice_early now inv (not_le.mp hnow)]
      exact sweepInvoice_early now inv (not_le.mp hnow)
  · have h : inv.finalized = true := by simpa using hfin
    rw [sweepInvoice_of_finalized now inv h]
    exact sweepInvoice_of_finalized now inv h

/-- C9: for every state and every instant `now`, sweeping twice at `now` gives
the same state (the same invoices with the same flags, `winningBid` and bids,
the same wallet) as sweeping once. -/
theorem sweep_idempotent (s : State) (now : Int) :
    sweep (sweep s now) now = sweep s now := by
  unfold sweep
  simp only [List.map_map]
  congr 1
  exact List.map_congr_left (fun inv _ => sweepInvoice_idem now inv)

/-! ## A finalized invoice is frozen -/

theorem placeBidInvoice_of_finalized (u : User) (invoiceId : Nat) (a : JsNumber) (n : Int) (inv : Invoice)
    (hfin : inv.finalized = true) : (placeBidInvoice u invoiceId a n inv).1 = inv := by
  unfold placeBidInvoice
  split_ifs <;> rfl

theorem manuallySelectBidInvoice_of_finalized (invoiceId : Nat) (b : Bid) (inv : Invoice)
    (hfin : inv.finalized = true) : manuallySelectBidInvoice invoiceId b inv = inv := by
  unfold manuallySelectBidInvoice
  split_ifs <;> rfl

theorem placeBid_getElem_of_finalized (s : State) (i : Nat) (inv : Invoice)
    (hi : s.invoices[i]? = some inv) (hfin : inv.finalized = true)
    (invoiceId : Nat) (a : JsNumber) (n : Int) :
    (placeBid s invoiceId a n).1.invoices[i]? = some inv := by
  unfold placeBid
  simp only [List.map_map, List.getElem?_map, hi, Option.map_some', Function.comp_apply,
    placeBidInvoice_of_finalized _ _ _ _ inv hfin]

theorem manuallySelectBid_getElem_of_finalized (s : State) (i : Nat) (inv : Invoice)
    (hi : s.invoices[i]? = some inv) (hfin : inv.finalized = true)
    (invoiceId : Nat) (b : Bid) :
    (manuallySelectBid s invoiceId b).invoices[i]? = some inv := by
  unfold manuallySelectBid
  simp only [List.getElem?_map, hi, Option.map_some',
    manuallySelectBidInvoice_of_finalized _ _ inv hfin]

theorem sweep_getElem_of_finalized (s : State) (i : Nat) (inv : Invoice)
    (hi : s.invoices[i]? = some inv) (hfin : inv.finalized = true) (now : Int) :
    (sweep s now).invoices[i]? = some inv := by
  unfold sweep
  simp only [List.getElem?_map, hi, Option.map_some', sweepInvoice_of_finalized now inv hfin]

theorem handleUploadInvoice_getElem (s : State) (i : Nat) (inv : Invoice)
    (hi : s.invoices[i]? = some inv) (f : InvoiceForm) :
    (handleUploadInvoice s f).invoices[i]? = some inv := by
  unfold handleUploadInvoice
  split
  · by_cases ht : f.title = ""
    · rw [if_pos ht]
      exact hi
    · rw [if_neg ht]
      have hlt : i < s.invoices.length := by
        by_contra hge
        rw [List.getElem?_eq_none (not_lt.mp hge)] at hi
        exact absurd hi (by simp)
      simp only [List.getElem?_append_left hlt, hi]
  · exact hi

theorem step_getElem_of_finalized (s : State) (i : Nat) (inv : Invoice)
    (hi : s.invoices[i]? = some inv) (hfin : inv.finalized = true) (c : Call) :
    (step s c).invoices[i]? = some inv := by
  cases c with
  | createInvoice form => exact handleUploadInvoice_getElem s i inv hi form
  | placeBid invoiceId bidAmount now =>
    exact placeBid_getElem_of_finalized s i inv hi hfin invoiceId bidAmount now
  | manualFinalize invoiceId selectedBid =>
    exact manuallySelectBid_getElem_of_finalized s i inv hi hfin invoiceId selectedBid
  | deposit amount =>
    show (handleDepositMoney s amount).invoices[i]? = some inv
    rw [handleDepositMoney_invoices]
    exact hi
  | sweep now => exact sweep_getElem_of_finalized s i inv hi hfin now

/-- C10: an invoice that is finalized, at position `i` of the store, is still
at position `i`, equal in every field (flags, `winningBid`, bids), after any
`placeBid`, after any `manuallySelectBid` with any chosen bid, after a sweep at
any instant, and after any sequence of calls. -/
theorem finalized_frozen (s : State) (i : Nat) (inv : Invoice)
    (hi : s.invoices[i]? = some inv) (hfin : inv.finalized = true) :
    (∀ (invoiceId : Nat) (amount : JsNumber) (now : Int),
        (placeBid s invoiceId amount now).1.invoices[i]? = some inv)
    ∧ (∀ (invoiceId : Nat) (chosenBid : Bid),
        (manuallySelectBid s invoiceId chosenBid).invoices[i]? = some inv)
    ∧ (∀ now : Int, (sweep s now).invoices[i]? = some inv)
    ∧ (∀ calls : List Call, (run s calls).invoices[i]? = some inv) := by
  refine ⟨placeBid_getElem_of_finalized s i inv hi hfin,
    manuallySelectBid_getElem_of_finalized s i inv hi hfin,
    sweep_getElem_of_finalized s i inv hi hfin, ?_⟩
  intro calls
  exact run_invariant (fun t => t.invoices[i]? = some inv)
    (fun t c ht => step_getElem_of_finalized t i inv ht hfin c) s hi calls

/-- Witness for C10: `finalizedState`, whose invoice was finalized with the bid
of 60; a bid of 70, a manual choice of the bid of 50, a sweep, and all three
in a row. -/
theorem finalized_frozen_witness :
    (finalizedState.invoices[0]?
        = some (finalizeInvoice manualInvoice { userId := 1, amount := 60, timePlaced := 20 })
      ∧ (finalizeInvoice manualInvoice
          { userId := 1, amount := 60, timePlaced := 20 }).finalized = true)
    ∧ (placeBid finalizedState 1 70 10).1.invoices[0]?
        = some (finalizeInvoice manualInvoice { userId := 1, amount := 60, timePlaced := 20 })
    ∧ (manuallySelectBid finalizedState 1
          { userId := 1, amount := 50, timePlaced := 10 }).invoices[0]?
        = some (finalizeInvoice manualInvoice { userId := 1, amount := 60, timePlaced := 20 })
    ∧ (sweep finalizedState 2000).invoices[0]?
        = some (finalizeInvoice manualInvoice { userId := 1, amount := 60, timePlaced := 20 })
    ∧ (run finalizedState
          [Call.placeBid 1 70 10,
           Call.manualFinalize 1 { userId := 1, amount := 50, timePlaced := 10 },
           Call.sweep 2000]).invoices[0]?
        = some (finalizeInvoice manualInvoice { userId := 1, amount := 60, timePlaced := 20 }) :=
  ⟨⟨rfl, rfl⟩,
   (finalized_frozen finalizedState 0 _ rfl rfl).1 1 70 10,
   (finalized_frozen finalizedState 0 _ rfl rfl).2.1 1
     { userId := 1, amount := 50, timePlaced := 10 },
   (finalized_frozen finalizedState 0 _ rfl rfl).2.2.1 2000,
   (finalized_frozen finalizedState 0 _ rfl rfl).2.2.2
     [Call.placeBid 1 70 10,
      Call.manualFinalize 1 { userId := 1, amount := 50, timePlaced := 10 },
      Call.sweep 2000]⟩

/-! ## The minimum bid and the sale at the sweep -/

/-- After any sequence of calls from the empty store in which no `placeBid`
call passes `NaN`, every invoice has all its bids at `amount ≥ minBid`, the test
`highestBid.amount >= inv.minBid` of the sweep succeeds whenever the bid list
is not empty, and an auto-accept invoice that is not finalized and holds a bid
is finalized by a sweep at `now ≥ endTime` with one of its bids as
`winningBid`. -/
theorem sale_of_number_bids (walletBalance : Int) (calls : List Call)
    (hcalls : ∀ c ∈ calls, bidIsNumber c) :
    ∀ inv ∈ (run (initialState walletBalance) calls).invoices,
      (∀ b ∈ inv.bids, b.amount ≥ inv.minBid)
      ∧ (∀ (first : Bid) (rest : List Bid), inv.bids = first :: rest →
          (highestBid first inv.bids).amount ≥ inv.minBid)
      ∧ (∀ now : Int, inv.autoAcceptHighest = true → inv.finalized = false →
          inv.bids ≠ [] → now ≥ inv.endTime →
          (sweepInvoice now inv).finalized = true
          ∧ ∃ w ∈ inv.bids, (sweepInvoice now inv).winningBid = some w
              ∧ sweepInvoice now inv = { inv with finalized := true, winningBid := some w }) := by
  have h := bids_within_bounds_of_number_bids walletBalance calls hcalls
  intro inv hinv
  have hmin : ∀ b ∈ inv.bids, b.amount ≥ inv.minBid := fun b hb => ((h inv hinv).2.2 b hb).2
  have hhigh : ∀ (first : Bid) (rest : List Bid), inv.bids = first :: rest →
      (highestBid first inv.bids).amount ≥ inv.minBid := by
    intro first rest hb
    have hm : highestBid first inv.bids ∈ inv.bids := by
      have := highestBid_mem first rest
      rw [← hb] at this
      exact this
    exact hmin _ hm
  refine ⟨hmin, hhigh, ?_⟩
  intro now hauto hfin hne hnow
  obtain ⟨first, rest, hb⟩ : ∃ first rest, inv.bids = first :: rest := by
    cases hbs : inv.bids with
    | nil => exact absurd hbs hne
    | cons first rest => exact ⟨first, rest, rfl⟩
  have hge : (highestBid first (first :: rest)).amount ≥ inv.minBid := by
    have := hhigh first rest hb
    rw [hb] at this
    exact this
  have hmem : highestBid first (first :: rest) ∈ inv.bids := by
    rw [hb]
    exact highestBid_mem first rest
  have e : sweepInvoice now inv =
      { inv with finalized := true, winningBid := some (highestBid first (first :: rest)) } := by
    rw [sweepInvoice_auto_cons now inv first rest hfin hnow hauto hb, if_pos hge]
    rfl
  exact ⟨by rw [e], highestBid first (first :: rest), hmem, by rw [e], e⟩

/-- The lemma on numbers at work: the upload `autoForm` (minimum bid 150), a
rejected bid of 100 and an accepted bid of 160 leave `biddenInvoice` in the
store, and the sweep at instant 1000 finalizes it with that bid. -/
theorem sale_of_number_bids_example :
    biddenInvoice ∈ (run (initialState 2000)
        [Call.createInvoice autoForm, Call.placeBid 1 100 5, Call.placeBid 1 160 10]).invoices
    ∧ ((sweepInvoice 1000 biddenInvoice).finalized = true
        ∧ ∃ w ∈ biddenInvoice.bids, (sweepInvoice 1000 biddenInvoice).winningBid = some w
            ∧ sweepInvoice 1000 biddenInvoice =
                { biddenInvoice with finalized := true, winningBid := some w }) :=
  ⟨by decide,
   (sale_of_number_bids 2000
      [Call.createInvoice autoForm, Call.placeBid 1 100 5, Call.placeBid 1 160 10]
      (by decide) biddenInvoice (by decide)).2.2 1000 rfl rfl (by decide) (by decide)⟩

/-- C11 fails on the code: after the upload `autoForm` (minimum bid 150), Confirm
on an empty bid field stores a bid of amount `NaN`, which is not `≥ minBid`
(the check `bidAmount < inv.minBid` is false for `NaN`), and a bid of 160
follows; at the sweep the reduce keeps the `NaN` bid, the test
`highestBid.amount >= inv.minBid` fails, and the branch "highest bid did not
meet the minimum" is taken: the invoice, auto-accept and holding two bids, is
closed without a `winningBid`. -/
theorem nan_bid_no_sale :
    (run (initialState 2000)
        [Call.createInvoice autoForm,
         Call.placeBid 1 JsNumber.nan 10,
         Call.placeBid 1 160 20]).invoices = [nanAutoInvoice]
    ∧ ¬ (({ userId := 1, amount := JsNumber.nan, timePlaced := 10 } : Bid).amount
          ≥ nanAutoInvoice.minBid)
    ∧ ¬ ((highestBid { userId := 1, amount := JsNumber.nan, timePlaced := 10 }
            nanAutoInvoice.bids).amount ≥ nanAutoInvoice.minBid)
    ∧ (run (initialState 2000)
        [Call.createInvoice autoForm,
         Call.placeBid 1 JsNumber.nan 10,
         Call.placeBid 1 160 20,
         Call.sweep 1000]).invoices
      = [{ nanAutoInvoice with finalized := true, winningBid := none }] := by
  decide

end InvoiceMarketplace
